import Mathlib

/-!
# Lidar obstacle detection: k-d tree, Euclidean clustering, plane segmentation

A shallow embedding of `src/processPointClouds.h` and theorems about it.  The
header defines the k-d tree and the clustering (namespace `cluster`) and
declares the members of `ProcessPointClouds`, whose definitions are in another
file; the two members the claims need are modelled from the specification.

Conventions of the embedding.

* A `std::vector<float>` point is a `List ℚ` and a tolerance a `ℚ`: a
  coordinate or a tolerance is a finite `float`, and every finite `float` is a
  rational number.  Infinities and NaN are no coordinates.
* The arithmetic of lines 129-143 is that of `float`, IEEE 754 binary32: every
  subtraction, addition, multiplication and square root is rounded to nearest
  with ties to even, overflows to an infinity and underflows through the
  subnormal numbers (`F32.round`, `F32.add`, `F32.sub`, `F32.mul`, `F32.sqrt`),
  each operation on its own, as on a target that evaluates `float` expressions
  in `float` and has no fused multiply-add.  The comparisons of `insertHelper`
  are between finite `float`s and are exact.
* `v[i]` on a `std::vector` has no bounds check; here every index access
  returns an `Option` and an out-of-range access makes the whole operation
  return `none`.
* `Node*` is the inductive type `Node`, `NULL` being `Node.null`.  A function
  that writes through a `Node**` returns the new subtree.
* An output parameter (`std::vector<int> &ids`, `&cluster`, `&processed`) is
  threaded through: the function takes the old value and returns the new one.
* `depth` and the loop counter `i` are natural numbers: the recursion depth of
  `insertHelper` and `searchHelper` and the number of points stay below
  `2^31`, so the machine counters never wrap.  Ids are `int`, here `Int`; no
  arithmetic is done on them.
* The exact Euclidean distance of the specification is `DistLe`, over the
  reals; `exactLe` decides it (`sqrt_le_iff_exactLe`).
* `clusterHelper` recurses on a measure that is no argument of it (the number
  of unprocessed ids), so it takes a bound on the nesting depth of its calls
  and returns `none` when the bound is used up; `euclideanCluster` passes
  `points.size()`, which `euclideanCluster_spec` shows to be enough.
-/

namespace cluster

/-! ## The arithmetic of `float` -/

/-- A value of type `float` (IEEE 754 binary32): a finite number, an infinity
or a NaN.  The two zeros are not told apart. -/
inductive F32 where
  | fin (q : ℚ) : F32
  | pinf : F32
  | ninf : F32
  | nan : F32
  deriving DecidableEq, Repr

/-- The power `2 ^ k` for an integer `k`. -/
def pow2 (k : Int) : ℚ :=
  if 0 ≤ k then ((2 ^ k.toNat : Nat) : ℚ) else 1 / ((2 ^ (-k).toNat : Nat) : ℚ)

/-- Halves `n` until it is below 2 and counts the steps; the first argument
bounds the number of steps. -/
def log2Steps : Nat → Nat → Nat
  | 0, _ => 0
  | f + 1, n => if n < 2 then 0 else log2Steps f (n / 2) + 1

/-- The integer logarithm `⌊log₂ n⌋` (0 for `n = 0`). -/
def ilog2 (n : Nat) : Nat := log2Steps n n

/-- The integer `e` with `2 ^ e ≤ a < 2 ^ (e + 1)`, for `a > 0`. -/
def floorLog2 (a : ℚ) : Int :=
  let k : Int := (ilog2 a.num.natAbs : Int) - (ilog2 a.den : Int)
  if pow2 k ≤ a then k else k - 1

/-- The integer nearest to `m ≥ 0`, the even one of the two when `m` is half-way. -/
def roundEven (m : ℚ) : Nat :=
  let f := m.num.natAbs / m.den
  let r := m.num.natAbs % m.den
  if 2 * r < m.den then f
  else if m.den < 2 * r then f + 1
  else if f % 2 = 0 then f else f + 1

/-- Rounding of an exact result to binary32, to nearest with ties to even:
24 significant bits, least exponent `-126` (below it the spacing stays
`2 ^ -149`), and infinity from `2 ^ 128` on. -/
def F32.round (x : ℚ) : F32 :=
  if x = 0 then F32.fin 0
  else
    let a := |x|
    if pow2 128 ≤ a then (if 0 < x then F32.pinf else F32.ninf)
    else
      let e := max (floorLog2 a) (-126)
      let q := pow2 (e - 23)
      let r := (roundEven (a / q) : ℚ) * q
      if pow2 128 ≤ r then (if 0 < x then F32.pinf else F32.ninf)
      else F32.fin (if 0 < x then r else -r)

/-- The `float` addition. -/
def F32.add : F32 → F32 → F32
  | F32.fin a, F32.fin b => F32.round (a + b)
  | F32.nan, _ => F32.nan
  | _, F32.nan => F32.nan
  | F32.pinf, F32.ninf => F32.nan
  | F32.ninf, F32.pinf => F32.nan
  | F32.pinf, _ => F32.pinf
  | _, F32.pinf => F32.pinf
  | F32.ninf, _ => F32.ninf
  | _, F32.ninf => F32.ninf

/-- The `float` negation. -/
def F32.neg : F32 → F32
  | F32.fin a => F32.fin (-a)
  | F32.pinf => F32.ninf
  | F32.ninf => F32.pinf
  | F32.nan => F32.nan

/-- The `float` subtraction. -/
def F32.sub (x y : F32) : F32 := F32.add x (F32.neg y)

/-- The `float` multiplication. -/
def F32.mul : F32 → F32 → F32
  | F32.fin a, F32.fin b => F32.round (a * b)
  | F32.nan, _ => F32.nan
  | _, F32.nan => F32.nan
  | F32.fin a, F32.pinf => if a = 0 then F32.nan else if 0 < a then F32.pinf else F32.ninf
  | F32.fin a, F32.ninf => if a = 0 then F32.nan else if 0 < a then F32.ninf else F32.pinf
  | F32.pinf, F32.fin b => if b = 0 then F32.nan else if 0 < b then F32.pinf else F32.ninf
  | F32.ninf, F32.fin b => if b = 0 then F32.nan else if 0 < b then F32.ninf else F32.pinf
  | F32.pinf, F32.pinf => F32.pinf
  | F32.ninf, F32.ninf => F32.pinf
  | F32.pinf, F32.ninf => F32.ninf
  | F32.ninf, F32.pinf => F32.ninf

/-- Integer square root by bits: `r` holds the bits above bit `b`. -/
def isqrtAux (n : Nat) : Nat → Nat → Nat
  | 0, r => r
  | b + 1, r => isqrtAux n b (if (r + 2 ^ b) * (r + 2 ^ b) ≤ n then r + 2 ^ b else r)

/-- The integer square root `⌊√n⌋`. -/
def isqrt (n : Nat) : Nat := isqrtAux n (ilog2 n / 2 + 1) 0

/-- The correctly rounded square root (`sqrt` on a `float`, the result stored
in a `float`). -/
def F32.sqrt : F32 → F32
  | F32.fin s =>
    if s < 0 then F32.nan
    else if s = 0 then F32.fin 0
    else
      let e := max (floorLog2 s / 2) (-126)
      let q := pow2 (e - 23)
      let r := s / (q * q)
      let f := isqrt (r.num.natAbs / r.den)
      let m :=
        if (2 * f + 1) * (2 * f + 1) * r.den < 4 * r.num.natAbs then f + 1
        else if (2 * f + 1) * (2 * f + 1) * r.den = 4 * r.num.natAbs then
          (if f % 2 = 0 then f else f + 1)
        else f
      F32.fin ((m : ℚ) * q)
  | F32.pinf => F32.pinf
  | F32.ninf => F32.nan
  | F32.nan => F32.nan

/-- The comparison `x < y` of two `float`s; false when one is a NaN. -/
def F32.lt : F32 → F32 → Bool
  | F32.fin a, F32.fin b => decide (a < b)
  | F32.fin _, F32.pinf => true
  | F32.ninf, F32.fin _ => true
  | F32.ninf, F32.pinf => true
  | _, _ => false

/-- The comparison `x <= y` of two `float`s; false when one is a NaN. -/
def F32.le : F32 → F32 → Bool
  | F32.fin a, F32.fin b => decide (a ≤ b)
  | F32.fin _, F32.pinf => true
  | F32.ninf, F32.fin _ => true
  | F32.ninf, F32.ninf => true
  | F32.pinf, F32.pinf => true
  | F32.ninf, F32.pinf => true
  | _, _ => false

/-! ## The source -/

/-- A point, `std::vector<float>`. -/
abbrev Point := List ℚ

/-- A `Node*`: either `NULL` or a node with its point, id and two children. -/
inductive Node where
  | null : Node
  | mk (point : Point) (id : Int) (left right : Node) : Node
  deriving DecidableEq, Repr

/-- The struct `KdTree`: its only field is `root`. -/
structure KdTree where
  root : Node
  deriving DecidableEq, Repr

/-- The constructor `KdTree()`: `root(NULL)`. -/
def KdTree.empty : KdTree := ⟨Node.null⟩

/-- `KdTree::insertHelper` (lines 93-115); the result is the new `*node`. -/
def insertHelper : Node → Nat → Point → Int → Option Node
  | Node.null, _, point, id => some (Node.mk point id Node.null Node.null)
  | Node.mk p i l r, depth, point, id =>
    let cd := depth % 3
    match point[cd]?, p[cd]? with
    | some a, some b =>
      if a < b then
        (insertHelper l (depth + 1) point id).map (fun l' => Node.mk p i l' r)
      else
        (insertHelper r (depth + 1) point id).map (fun r' => Node.mk p i l r')
    | _, _ => none

/-- `KdTree::insert` (lines 117-122). -/
def KdTree.insert (tree : KdTree) (point : Point) (id : Int) : Option KdTree :=
  (insertHelper tree.root 0 point id).map KdTree.mk

/-- Short-circuit `&&` over fallible operands: the right operand is only
looked at when the left one is `true`. -/
def sAnd (a b : Option Bool) : Option Bool :=
  a.bind (fun x => if x then b else some false)

/-- One axis of the cube test of line 129:
`point[k] >= target[k] - distanceTol && point[k] <= target[k] + distanceTol`. -/
def axisIn (point target : Point) (k : Nat) (distanceTol : ℚ) : Option Bool :=
  match point[k]?, target[k]? with
  | some a, some t =>
    some (F32.le (F32.sub (F32.fin t) (F32.fin distanceTol)) (F32.fin a) &&
      F32.le (F32.fin a) (F32.add (F32.fin t) (F32.fin distanceTol)))
  | _, _ => none

/-- The condition of line 129, axes 0, 1, 2 joined by `&&`. -/
def inCube (point target : Point) (distanceTol : ℚ) : Option Bool :=
  sAnd (sAnd (axisIn point target 0 distanceTol) (axisIn point target 1 distanceTol))
    (axisIn point target 2 distanceTol)

/-- One of `x_dist_squarred`, `y_dist_squarred`, `z_dist_squarred` of lines
131-133: `(a - t) * (a - t)`, the difference and the product each rounded. -/
def sqDiff (a t : ℚ) : F32 :=
  F32.mul (F32.sub (F32.fin a) (F32.fin t)) (F32.sub (F32.fin a) (F32.fin t))

/-- The sum under the square root of line 134:
`x_dist_squarred + y_dist_squarred + z_dist_squarred`, added from the left. -/
def distSq (point target : Point) : Option F32 :=
  match point[0]?, point[1]?, point[2]?, target[0]?, target[1]?, target[2]? with
  | some a0, some a1, some a2, some t0, some t1, some t2 =>
    some (F32.add (F32.add (sqDiff a0 t0) (sqDiff a1 t1)) (sqDiff a2 t2))
  | _, _, _, _, _, _ => none

/-- The test of lines 134-135: `distance = sqrt(s)` as a `float`, then
`distance <= distanceTol`. -/
def withinTol (s : F32) (distanceTol : ℚ) : Bool :=
  F32.le (F32.sqrt s) (F32.fin distanceTol)

/-- `KdTree::searchHelper` (lines 125-146); the result is the new `ids`. -/
def searchHelper (target : Point) : Node → Nat → ℚ → List Int → Option (List Int)
  | Node.null, _, _, ids => some ids
  | Node.mk p i l r, depth, distanceTol, ids =>
    (inCube p target distanceTol).bind fun c =>
    (if c then (distSq p target).map
        (fun s => if withinTol s distanceTol then ids ++ [i] else ids)
      else some ids).bind fun ids1 =>
    match target[depth % 3]?, p[depth % 3]? with
    | some t, some a =>
      (if F32.lt (F32.sub (F32.fin t) (F32.fin distanceTol)) (F32.fin a) then
          searchHelper target l (depth + 1) distanceTol ids1
        else some ids1).bind fun ids2 =>
      if F32.le (F32.fin a) (F32.add (F32.fin t) (F32.fin distanceTol)) then
        searchHelper target r (depth + 1) distanceTol ids2
      else some ids2
    | _, _ => none

/-- `KdTree::search` (lines 149-154). -/
def KdTree.search (tree : KdTree) (target : Point) (distanceTol : ℚ) : Option (List Int) :=
  searchHelper target tree.root 0 distanceTol []

/-- `v[i]` for an `int` index `i`. -/
def getAt {α : Type} (v : List α) (i : Int) : Option α :=
  if 0 ≤ i then v[i.toNat]? else none

/-- `v[i] = x` for an `int` index `i`; the result is the new `v`. -/
def setAt {α : Type} (v : List α) (i : Int) (x : α) : Option (List α) :=
  if 0 ≤ i ∧ i.toNat < v.length then some (v.set i.toNat x) else none

/-- The range-for loop of lines 165-169 over `nearest`, for a given loop body. -/
def forNearest (body : Int → List Int × List Bool → Option (List Int × List Bool)) :
    List Int → List Int × List Bool → Option (List Int × List Bool)
  | [], st => some st
  | id :: rest, st => (body id st).bind (forNearest body rest)

/-- `cluster::clusterHelper` (lines 157-170); the result is the new
`(cluster, processed)`.  The first argument bounds the nesting depth of the
recursive calls; `none` is returned when it is used up. -/
def clusterHelper : Nat → Int → List Point → List Int → List Bool → KdTree → ℚ →
    Option (List Int × List Bool)
  | 0, _, _, _, _, _, _ => none
  | fuel + 1, indice, points, cluster, processed, tree, distanceTol =>
    (setAt processed indice true).bind fun processed1 =>
    (getAt points indice).bind fun pt =>
    (tree.search pt distanceTol).bind fun nearest =>
    forNearest (fun id st =>
        (getAt st.2 id).bind fun b =>
        if !b then clusterHelper fuel id points st.1 st.2 tree distanceTol else some st)
      nearest (cluster ++ [indice], processed1)

/-- The `while (i < points.size())` loop of lines 179-191.  The first argument
is the number of iterations left, `points.size() - i`. -/
def clusterLoop (points : List Point) (tree : KdTree) (distanceTol : ℚ) :
    Nat → Nat → List (List Int) → List Bool → Option (List (List Int))
  | 0, _, clusters, _ => some clusters
  | left + 1, i, clusters, processed =>
    match processed[i]? with
    | none => none
    | some true => clusterLoop points tree distanceTol left (i + 1) clusters processed
    | some false =>
      (clusterHelper points.length (i : Int) points [] processed tree distanceTol).bind
        fun st => clusterLoop points tree distanceTol left (i + 1) (clusters ++ [st.1]) st.2

/-- `cluster::euclideanCluster` (lines 173-194). -/
def euclideanCluster (points : List Point) (tree : KdTree) (distanceTol : ℚ) :
    Option (List (List Int)) :=
  clusterLoop points tree distanceTol points.length 0 [] (List.replicate points.length false)

/-! ## Specification vocabulary -/

/-- Inserts the pairs of a list one after the other, starting from `tree`. -/
def insertAll : KdTree → List (Point × Int) → Option KdTree
  | tree, [] => some tree
  | tree, (p, i) :: rest => (tree.insert p i).bind fun t => insertAll t rest

/-- Coordinate `k` of a point (0 when the point is too short). -/
def coord (p : Point) (k : Nat) : ℚ := p.getD k 0

/-- Squared Euclidean distance of two points, on their first three coordinates. -/
def sqDist (p q : Point) : ℚ :=
  (coord p 0 - coord q 0) * (coord p 0 - coord q 0)
    + (coord p 1 - coord q 1) * (coord p 1 - coord q 1)
    + (coord p 2 - coord q 2) * (coord p 2 - coord q 2)

/-- The Euclidean distance from `p` to `q` is at most `tol`, over the reals. -/
def DistLe (p q : Point) (tol : ℚ) : Prop :=
  Real.sqrt ((sqDist p q : ℚ) : ℝ) ≤ ((tol : ℚ) : ℝ)

/-- Decides `sqrt(s) ≤ tol` over the reals, for exact numbers `s` and `tol`. -/
def exactLe (s tol : ℚ) : Bool :=
  decide (0 ≤ tol) && decide (s ≤ tol * tol)

/-- Pre-order traversal (node, left subtree, right subtree) of the stored pairs. -/
def Node.pairs : Node → List (Point × Int)
  | Node.null => []
  | Node.mk p i l r => (p, i) :: (l.pairs ++ r.pairs)

/-- Number of nodes. -/
def Node.size : Node → Nat
  | Node.null => 0
  | Node.mk _ _ l r => l.size + r.size + 1

/-- Every stored point has its three coordinates. -/
def Node.WF (n : Node) : Prop := ∀ q ∈ n.pairs, 3 ≤ q.1.length

/-- The side of a child under its parent. -/
inductive Side where
  | left : Side
  | right : Side
  deriving DecidableEq, Repr

/-- The pair held by the node reached from `n` along a path of sides, `none`
when there is no node there. -/
def Node.label : Node → List Side → Option (Point × Int)
  | Node.null, _ => none
  | Node.mk p i _ _, [] => some (p, i)
  | Node.mk _ _ l _, Side.left :: path => l.label path
  | Node.mk _ _ _ r, Side.right :: path => r.label path

/-- The k-d ordering invariant for a subtree whose root is at depth `d`. -/
def Node.Inv : Node → Nat → Prop
  | Node.null, _ => True
  | Node.mk p _ l r, d =>
    (∀ q ∈ l.pairs, coord q.1 (d % 3) < coord p (d % 3)) ∧
    (∀ q ∈ r.pairs, coord p (d % 3) ≤ coord q.1 (d % 3)) ∧
    l.Inv (d + 1) ∧ r.Inv (d + 1)

/-- The k-d ordering invariant of a tree. -/
def KdTree.Inv (tree : KdTree) : Prop := tree.root.Inv 0

instance Node.decidableWF (n : Node) : Decidable n.WF := by
  unfold Node.WF; infer_instance

/-- The invariant is decidable, by recursion on the tree. -/
def Node.decidableInv : (n : Node) → (d : Nat) → Decidable (n.Inv d)
  | Node.null, _ => isTrue trivial
  | Node.mk p _ l r, d =>
    have := Node.decidableInv l (d + 1)
    have := Node.decidableInv r (d + 1)
    by unfold Node.Inv; infer_instance

instance (n : Node) (d : Nat) : Decidable (n.Inv d) := Node.decidableInv n d

instance (tree : KdTree) : Decidable tree.Inv := by
  unfold KdTree.Inv; infer_instance

/-- The node passes the tests of lines 129 and 135 as the program computes
them: its point is in the cube and its rounded distance is at most `tol`. -/
def Reported (p target : Point) (tol : ℚ) : Prop :=
  inCube p target tol = some true ∧
    (distSq p target).map (fun s => withinTol s tol) = some true

/-- The descent test of line 141 at axis `k`: `target[k] - tol < point[k]`. -/
def goesLeft (p target : Point) (k : Nat) (tol : ℚ) : Bool :=
  F32.lt (F32.sub (F32.fin (coord target k)) (F32.fin tol)) (F32.fin (coord p k))

/-- The descent test of line 143 at axis `k`: `target[k] + tol >= point[k]`. -/
def goesRight (p target : Point) (k : Nat) (tol : ℚ) : Bool :=
  F32.le (F32.fin (coord p k)) (F32.add (F32.fin (coord target k)) (F32.fin tol))

/-- One axis of the cube test of line 129, on points with three coordinates. -/
def axisTest (p target : Point) (k : Nat) (tol : ℚ) : Bool :=
  F32.le (F32.sub (F32.fin (coord target k)) (F32.fin tol)) (F32.fin (coord p k)) &&
    F32.le (F32.fin (coord p k)) (F32.add (F32.fin (coord target k)) (F32.fin tol))

/-- The cube test of line 129, on points with three coordinates. -/
def cubeTest (p target : Point) (tol : ℚ) : Bool :=
  axisTest p target 0 tol && axisTest p target 1 tol && axisTest p target 2 tol

/-- The sum under the square root of line 134, on points with three coordinates. -/
def floatDistSq (p target : Point) : F32 :=
  F32.add (F32.add (sqDiff (coord p 0) (coord target 0)) (sqDiff (coord p 1) (coord target 1)))
    (sqDiff (coord p 2) (coord target 2))

/-- The test of line 135 for a stored pair, as the program computes it. -/
def nearNoCube (target : Point) (tol : ℚ) (q : Point × Int) : Bool :=
  withinTol (floatDistSq q.1 target) tol

/-- The tests of lines 129 and 135 for a stored pair, as the program computes
them. -/
def near (target : Point) (tol : ℚ) (q : Point × Int) : Bool :=
  cubeTest q.1 target tol && nearNoCube target tol q

/-- The ids a scan of the pre-order list reports. -/
def scan (target : Point) (tol : ℚ) (n : Node) : List Int :=
  (n.pairs.filter (near target tol)).map Prod.snd

/-- The state `st` is reached from cluster `c` and flags `P` by marking the
ids of `new`, none of them marked before, and appending them to the cluster. -/
structure Extends (c : List Int) (P : List Bool) (new : List Int)
    (st : List Int × List Bool) : Prop where
  cluster_eq : st.1 = c ++ new
  length_eq : st.2.length = P.length
  nodup : new.Nodup
  fresh : ∀ x ∈ new, getAt P x = some false
  marked : ∀ k, getAt st.2 k = some true ↔ (getAt P k = some true ∨ k ∈ new)
  count : st.2.count false + new.length = P.count false

/-- The hypotheses under which clustering runs: every point has its three
coordinates, so has every point stored in the tree, and every id stored in the
tree indexes `points`. -/
structure Ctx (points : List Point) (tree : KdTree) : Prop where
  points_wf : ∀ p ∈ points, 3 ≤ p.length
  tree_wf : tree.root.WF
  ids_in_range : ∀ q ∈ tree.root.pairs, 0 ≤ q.2 ∧ q.2 < points.length

/-- The id `v` is reported by the search around point number `u`. -/
def Edge (points : List Point) (tree : KdTree) (tol : ℚ) (u v : Int) : Prop :=
  ∃ pt nearest, getAt points u = some pt ∧ tree.search pt tol = some nearest ∧ v ∈ nearest

/-- The body of the loop of lines 165-169, for nesting depth `fuel`. -/
def visit (fuel : Nat) (points : List Point) (tree : KdTree) (tol : ℚ) :
    Int → List Int × List Bool → Option (List Int × List Bool) :=
  fun id st =>
    (getAt st.2 id).bind fun b =>
      if !b then clusterHelper fuel id points st.1 st.2 tree tol else some st

/-- What one call of `clusterHelper` on `indice` achieves, `P1` being the flags
just after `indice` is marked and `c` the cluster just after it is appended. -/
structure HelperPost (points : List Point) (tree : KdTree) (tol : ℚ) (indice : Int)
    (c : List Int) (P1 : List Bool) (new : List Int) (st : List Int × List Bool) : Prop where
  ext : Extends c P1 new st
  reach : ∀ x ∈ new, Relation.ReflTransGen (Edge points tree tol) indice x
  closed : ∀ x, x = indice ∨ x ∈ new → ∀ v, Edge points tree tol x v →
    getAt st.2 v = some true

/-- What the loop over `nearest` achieves from cluster `c` and flags `Q`. -/
structure LoopPost (points : List Point) (tree : KdTree) (tol : ℚ) (nearest : List Int)
    (c : List Int) (Q : List Bool) (new : List Int) (st : List Int × List Bool) : Prop where
  ext : Extends c Q new st
  reach : ∀ x ∈ new, ∃ id ∈ nearest, Relation.ReflTransGen (Edge points tree tol) id x
  closed : ∀ x ∈ new, ∀ v, Edge points tree tol x v → getAt st.2 v = some true
  seen : ∀ id ∈ nearest, getAt st.2 id = some true

/-- The state of the `while` loop of `euclideanCluster` before iteration `i`:
`cs` are the clusters found so far and `P` the flags. -/
structure LoopInv (points : List Point) (tree : KdTree) (tol : ℚ) (i : Nat)
    (cs : List (List Int)) (P : List Bool) : Prop where
  len : P.length = points.length
  done : ∀ j : Nat, j < i → getAt P (j : Int) = some true
  covered : ∀ k, getAt P k = some true ↔ ∃ c ∈ cs, k ∈ c
  closed : ∀ x, getAt P x = some true → ∀ v, Edge points tree tol x v →
    getAt P v = some true
  shape : ∀ c ∈ cs, ∃ s rest, c = s :: rest ∧ 0 ≤ s ∧ s < (i : Int) ∧ c.Nodup ∧
    (∀ x ∈ rest, s < x) ∧ ∀ x ∈ rest, Relation.ReflTransGen (Edge points tree tol) s x
  heads : cs.Pairwise (fun c c' => ∃ s s', c.head? = some s ∧ c'.head? = some s' ∧ s < s')
  disjoint : cs.Pairwise (fun c c' => ∀ x ∈ c, x ∉ c')
  noedge : cs.Pairwise (fun c c' => ∀ x ∈ c, ∀ v ∈ c', ¬ Edge points tree tol x v)

/-- The points with their positions as ids, from position `k` on. -/
def indexedFrom : Nat → List Point → List (Point × Int)
  | _, [] => []
  | k, p :: ps => (p, (k : Int)) :: indexedFrom (k + 1) ps

/-- The pairs `(points[i], i)`. -/
def indexed (points : List Point) : List (Point × Int) := indexedFrom 0 points

/-- Points number `i` and `j` exist and their Euclidean distance is at most `tol`. -/
def Adj (points : List Point) (tol : ℚ) (i j : Int) : Prop :=
  ∃ p q, getAt points i = some p ∧ getAt points j = some q ∧ DistLe p q tol

/-- Points number `i` and `j` exist and point `j` passes the tests of lines
129 and 135 around point `i`: the search around `points[i]` reports a node
that stores `points[j]`. -/
def Step (points : List Point) (tol : ℚ) (i j : Int) : Prop :=
  ∃ p q, getAt points i = some p ∧ getAt points j = some q ∧ Reported q p tol

/-! ## The size filter and concrete inputs -/

/-- Modelled from the spec: the size filter of the clustering operation
`cluster(points, index, tolerance, minSize, maxSize)` (section 4.2, step 4),
which `ProcessPointClouds::CustomClustering`, declared at line 52 and defined
in a file that is not part of the sources, applies: a cluster found by
`euclideanCluster` is emitted when its size lies within `[minSize, maxSize]`
and discarded otherwise. -/
def CustomClustering (points : List Point) (tree : KdTree) (tol : ℚ)
    (minSize maxSize : Int) : Option (List (List Int)) :=
  (euclideanCluster points tree tol).map fun cs =>
    cs.filter fun c => decide (minSize ≤ (c.length : Int) ∧ (c.length : Int) ≤ maxSize)

/-- The four points of scenario A. -/
def pointsA : List Point := [[0, 0, 0], [1, 0, 0], [0, 1, 0], [5, 5, 5]]

/-- The points of scenario A with their positions as ids. -/
def opsA : List (Point × Int) :=
  [([0, 0, 0], 0), ([1, 0, 0], 1), ([0, 1, 0], 2), ([5, 5, 5], 3)]

/-- The tree of scenario A: the four points inserted in order. -/
def treeA : KdTree :=
  ⟨Node.mk [0, 0, 0] 0 Node.null
    (Node.mk [1, 0, 0] 1 Node.null
      (Node.mk [0, 1, 0] 2 Node.null (Node.mk [5, 5, 5] 3 Node.null Node.null)))⟩

/-! ## The search without the cube test -/

/-- Three points in a row at distance 1 from one another. -/
def pointsRow : List Point := [[0, 0, 0], [1, 0, 0], [2, 0, 0]]

/-- The tree of `pointsRow`: the three points inserted in order. -/
def treeRow : KdTree :=
  ⟨Node.mk [0, 0, 0] 0 Node.null
    (Node.mk [1, 0, 0] 1 Node.null (Node.mk [2, 0, 0] 2 Node.null Node.null))⟩

/-- The point `(0.3f, 0.4f, 0)`: the `float`s nearest to 0.3 and 0.4. -/
def pointF : Point := [5033165 / 16777216, 13421773 / 33554432, 0]

/-- The tree that holds `pointF` under id 0. -/
def treeF : KdTree := ⟨Node.mk pointF 0 Node.null Node.null⟩

/-- The origin and `pointF`. -/
def pointsF : List Point := [[0, 0, 0], pointF]

/-- The tree of `pointsF`: the two points inserted in order. -/
def treeF2 : KdTree :=
  ⟨Node.mk [0, 0, 0] 0 Node.null (Node.mk pointF 1 Node.null Node.null)⟩

/-- The `float` nearest to `3e19`. -/
def bigF : ℚ := 30000001041030971392

/-- The tree that holds the origin under id 0. -/
def treeO : KdTree := ⟨Node.mk [0, 0, 0] 0 Node.null Node.null⟩

/-- Three inserts under the one id 7, two of them within `3/2` of the origin. -/
def opsSeven : List (Point × Int) := [([0, 0, 0], 7), ([1, 0, 0], 7), ([5, 5, 5], 7)]

end cluster

namespace ProcessPointClouds

/-! ## Plane segmentation -/

/-- A point of a cloud, with its `x`, `y`, `z` accessors. -/
structure PointXYZ where
  x : ℚ
  y : ℚ
  z : ℚ
  deriving DecidableEq, Repr

/-- The coefficients of a plane `Ax + By + Cz + D = 0`. -/
structure PlaneModel where
  A : ℚ
  B : ℚ
  C : ℚ
  D : ℚ
  deriving DecidableEq, Repr

/-- Modelled from the spec: step 2 of section 4.3, the plane hypothesis of
three sampled points; `RansacPlane` is declared at line 39 and defined in a
file that is not part of the sources.  The normal `(A, B, C)` is the cross
product of the edge vectors from the first point to the other two and
`D = -(A*x0 + B*y0 + C*z0)`. -/
def planeThrough (p0 p1 p2 : PointXYZ) : PlaneModel :=
  let A := (p1.y - p0.y) * (p2.z - p0.z) - (p1.z - p0.z) * (p2.y - p0.y)
  let B := (p1.z - p0.z) * (p2.x - p0.x) - (p1.x - p0.x) * (p2.z - p0.z)
  let C := (p1.x - p0.x) * (p2.y - p0.y) - (p1.y - p0.y) * (p2.x - p0.x)
  ⟨A, B, C, -(A * p0.x + B * p0.y + C * p0.z)⟩

/-- Modelled from the spec: the degeneracy check of step 3, the magnitude of
the normal is zero (on exact numbers, its square is). -/
def PlaneModel.degenerate (m : PlaneModel) : Bool :=
  decide (m.A * m.A + m.B * m.B + m.C * m.C = 0)

/-- Modelled from the spec: the inlier test of step 4,
`|A*x + B*y + C*z + D| / sqrt(A^2 + B^2 + C^2) <= distanceTolerance`, decided
on exact numbers by comparing the squares. -/
def PlaneModel.isInlier (m : PlaneModel) (distanceTol : ℚ) (p : PointXYZ) : Bool :=
  decide (0 ≤ distanceTol) &&
    decide ((m.A * p.x + m.B * p.y + m.C * p.z + m.D) * (m.A * p.x + m.B * p.y + m.C * p.z + m.D)
      ≤ distanceTol * distanceTol * (m.A * m.A + m.B * m.B + m.C * m.C))

/-- Modelled from the spec: the iterations of section 4.3, one per sampled
triple of positions in the cloud.  A degenerate sample is skipped without
being scored; a scored hypothesis replaces the best one so far only when its
inlier count is strictly larger. -/
def bestPlane (cloud : List PointXYZ) (distanceTol : ℚ) :
    List (Fin cloud.length × Fin cloud.length × Fin cloud.length) →
    Option (PlaneModel × Nat) → Option (PlaneModel × Nat)
  | [], best => best
  | s :: rest, best =>
    let m := planeThrough (cloud.get s.1) (cloud.get s.2.1) (cloud.get s.2.2)
    if m.degenerate then bestPlane cloud distanceTol rest best
    else
      let count := (cloud.filter (m.isInlier distanceTol)).length
      match best with
      | none => bestPlane cloud distanceTol rest (some (m, count))
      | some (m', count') =>
        if count' < count then bestPlane cloud distanceTol rest (some (m, count))
        else bestPlane cloud distanceTol rest (some (m', count'))

/-- Modelled from the spec: `segment(cloud, maxIterations, distanceTolerance)`
of section 4.3, `samples` holding the triple drawn in each of the
`maxIterations` iterations.  The cloud is split by the best hypothesis into
inliers and outliers; when no hypothesis was scored the inlier cloud is empty
and the outlier cloud is the cloud itself. -/
def RansacPlane (cloud : List PointXYZ)
    (samples : List (Fin cloud.length × Fin cloud.length × Fin cloud.length))
    (distanceTol : ℚ) : List PointXYZ × List PointXYZ :=
  match bestPlane cloud distanceTol samples none with
  | none => ([], cloud)
  | some (m, _) =>
    (cloud.filter (m.isInlier distanceTol), cloud.filter (fun p => !m.isInlier distanceTol p))

/-- A cloud of four points on one line, two of them equal. -/
def cloudLine : List PointXYZ := [⟨0, 0, 0⟩, ⟨1, 1, 1⟩, ⟨2, 2, 2⟩, ⟨1, 1, 1⟩]

/-- Two draws from `cloudLine`: three collinear points, then a triple with a
repeated point. -/
def samplesLine : List (Fin cloudLine.length × Fin cloudLine.length × Fin cloudLine.length) :=
  [(⟨0, by decide⟩, ⟨1, by decide⟩, ⟨2, by decide⟩),
   (⟨1, by decide⟩, ⟨3, by decide⟩, ⟨0, by decide⟩)]

end ProcessPointClouds

namespace cluster

/-! ## Supporting lemmas -/

theorem log2Steps_eq (f n : Nat) (h : n ≤ f) : log2Steps f n = Nat.log2 n := by
  induction f generalizing n with
  | zero =>
    have : n = 0 := by omega
    subst this
    rw [Nat.log2]; rfl
  | succ f ih =>
    rw [log2Steps, Nat.log2]
    by_cases hn : n < 2
    · simp [hn, Nat.not_le.mpr hn]
    · have h2 : n ≥ 2 := Nat.not_lt.mp hn
      have hhalf : n / 2 ≤ f := by omega
      simp [hn, h2, ih (n / 2) hhalf]

/-- The logarithm of the arithmetic is the integer logarithm. -/
theorem ilog2_eq (n : Nat) : ilog2 n = Nat.log2 n := log2Steps_eq n n (Nat.le_refl n)

theorem isqrtAux_spec (n : Nat) (b r : Nat) (h1 : r * r ≤ n)
    (h2 : n < (r + 2 ^ b) * (r + 2 ^ b)) :
    isqrtAux n b r * isqrtAux n b r ≤ n ∧
      n < (isqrtAux n b r + 1) * (isqrtAux n b r + 1) := by
  induction b generalizing r with
  | zero => exact ⟨h1, by simpa using h2⟩
  | succ b ih =>
    rw [isqrtAux]
    by_cases hc : (r + 2 ^ b) * (r + 2 ^ b) ≤ n
    · rw [if_pos hc]
      refine ih (r + 2 ^ b) hc ?_
      have : r + 2 ^ b + 2 ^ b = r + 2 ^ (b + 1) := by rw [pow_succ]; omega
      rw [this]; exact h2
    · rw [if_neg hc]
      exact ih r h1 (Nat.not_le.mp hc)

/-- The square root of the arithmetic is the integer square root. -/
theorem isqrt_eq (n : Nat) : isqrt n = Nat.sqrt n := by
  apply Nat.eq_sqrt.mpr
  unfold isqrt
  apply isqrtAux_spec n _ 0 (Nat.zero_le _)
  rw [Nat.zero_add, ← pow_add, ilog2_eq]
  refine lt_of_lt_of_le Nat.lt_log2_self (Nat.pow_le_pow_right (by decide) ?_)
  omega

/-- Test vectors of the rounding: `0.1f`, `16777217` (a tie, to even),
`1e8f - 1`, `2^-24 + 1` (a tie, to even), `2^-150` (a tie below the least
subnormal number, to zero), `2^-149`, the largest finite `float`, the overflow
threshold, and the square roots of 2 and of `1 + 2^-23`. -/
theorem F32.round_examples :
    F32.round (1 / 10) = F32.fin (13421773 / 134217728) ∧
    F32.round 16777217 = F32.fin 16777216 ∧
    F32.round (100000000 - 1) = F32.fin 100000000 ∧
    F32.round (1 / 16777216 + 1) = F32.fin 1 ∧
    F32.round (pow2 (-150)) = F32.fin 0 ∧
    F32.round (pow2 (-149)) = F32.fin (pow2 (-149)) ∧
    F32.round (pow2 128 - pow2 104) = F32.fin (pow2 128 - pow2 104) ∧
    F32.round (pow2 128 - pow2 103) = F32.pinf ∧
    F32.sqrt (F32.fin 2) = F32.fin (11863283 / 8388608) ∧
    F32.sqrt (F32.fin (8388609 / 8388608)) = F32.fin 1 := by
  refine ⟨?_, ?_, ?_, ?_, ?_, ?_, ?_, ?_, ?_, ?_⟩ <;> decide!

/-- The search depends on the order of the points: for the `float` points
`A = (3·2^-25, 0, 0)` and `B = (1 + 2^-23, 0, 0)` and tolerance 1, the search
around `A` reports `B`, not the search around `B` the point `A`, and the
clusters are `[[0, 1]]` for the order `A, B` and `[[0], [1]]` for `B, A`. -/
theorem search_relation_asymmetric :
    (insertAll KdTree.empty [([3 / 33554432, 0, 0], 0), ([8388609 / 8388608, 0, 0], 1)]).bind
        (fun t => euclideanCluster [[3 / 33554432, 0, 0], [8388609 / 8388608, 0, 0]] t 1) =
      some [[0, 1]] ∧
    (insertAll KdTree.empty [([8388609 / 8388608, 0, 0], 0), ([3 / 33554432, 0, 0], 1)]).bind
        (fun t => euclideanCluster [[8388609 / 8388608, 0, 0], [3 / 33554432, 0, 0]] t 1) =
      some [[0], [1]] := by
  constructor <;> decide!

theorem getElem?_coord {p : Point} (h : 3 ≤ p.length) {k : Nat} (hk : k < 3) :
    p[k]? = some (coord p k) := by
  have hk' : k < p.length := by omega
  simp [coord, List.getD, List.getElem?_eq_getElem hk']

theorem sqDist_nonneg (p q : Point) : 0 ≤ sqDist p q := by
  unfold sqDist
  nlinarith [mul_self_nonneg (coord p 0 - coord q 0), mul_self_nonneg (coord p 1 - coord q 1),
    mul_self_nonneg (coord p 2 - coord q 2)]

theorem sqDist_comm (p q : Point) : sqDist p q = sqDist q p := by
  unfold sqDist; ring

/-- The decision `exactLe` agrees with the real square root. -/
theorem sqrt_le_iff_exactLe (s tol : ℚ) :
    Real.sqrt ((s : ℚ) : ℝ) ≤ ((tol : ℚ) : ℝ) ↔ exactLe s tol = true := by
  simp only [exactLe, Bool.and_eq_true, decide_eq_true_eq]
  constructor
  · intro h
    have h0 : (0 : ℝ) ≤ (tol : ℝ) := le_trans (Real.sqrt_nonneg _) h
    have h1 : (s : ℝ) ≤ (tol : ℝ) ^ 2 := (Real.sqrt_le_left h0).mp h
    refine ⟨by exact_mod_cast h0, ?_⟩
    have h2 : (s : ℝ) ≤ ((tol * tol : ℚ) : ℝ) := by push_cast; nlinarith
    exact_mod_cast h2
  · rintro ⟨h0, h1⟩
    have h0' : (0 : ℝ) ≤ (tol : ℝ) := by exact_mod_cast h0
    have h1' : (s : ℝ) ≤ ((tol * tol : ℚ) : ℝ) := by exact_mod_cast h1
    refine (Real.sqrt_le_left h0').mpr ?_
    push_cast at h1'; nlinarith

theorem distLe_iff (p q : Point) (tol : ℚ) :
    DistLe p q tol ↔ exactLe (sqDist p q) tol = true :=
  sqrt_le_iff_exactLe _ _

theorem distLe_comm (p q : Point) (tol : ℚ) : DistLe p q tol ↔ DistLe q p tol := by
  simp only [distLe_iff, sqDist_comm p q]

theorem distLe_nonneg {p q : Point} {tol : ℚ} (h : DistLe p q tol) : 0 ≤ tol := by
  rw [distLe_iff] at h
  simp only [exactLe, Bool.and_eq_true, decide_eq_true_eq] at h
  exact h.1

theorem insertHelper_null (d : Nat) (point : Point) (id : Int) :
    insertHelper Node.null d point id = some (Node.mk point id Node.null Node.null) := rfl

theorem insertHelper_mk {p point : Point} (hp : 3 ≤ p.length) (hpt : 3 ≤ point.length)
    (i id : Int) (l r : Node) (d : Nat) :
    insertHelper (Node.mk p i l r) d point id =
      if coord point (d % 3) < coord p (d % 3) then
        (insertHelper l (d + 1) point id).map (fun l' => Node.mk p i l' r)
      else
        (insertHelper r (d + 1) point id).map (fun r' => Node.mk p i l r') := by
  have hd : d % 3 < 3 := Nat.mod_lt _ (by decide)
  simp only [insertHelper, getElem?_coord hp hd, getElem?_coord hpt hd]

theorem Node.WF_mk {p : Point} {i : Int} {l r : Node} :
    (Node.mk p i l r).WF ↔ 3 ≤ p.length ∧ l.WF ∧ r.WF := by
  simp only [Node.WF, Node.pairs, List.mem_cons, List.mem_append]
  constructor
  · intro h
    exact ⟨h (p, i) (Or.inl rfl), fun q hq => h q (Or.inr (Or.inl hq)),
      fun q hq => h q (Or.inr (Or.inr hq))⟩
  · rintro ⟨h1, h2, h3⟩ q (rfl | hq | hq)
    · exact h1
    · exact h2 q hq
    · exact h3 q hq

/-- Insertion into a well-formed subtree succeeds; the pre-order list of the
result is the old one with the new pair put in at some position. -/
theorem insertHelper_spec (n : Node) (d : Nat) (point : Point) (id : Int)
    (hn : n.WF) (hpt : 3 ≤ point.length) :
    ∃ n', insertHelper n d point id = some n' ∧ n'.WF ∧
      n'.pairs.Perm ((point, id) :: n.pairs) ∧ n'.size = n.size + 1 := by
  induction n generalizing d with
  | null =>
    refine ⟨_, rfl, ?_, List.Perm.refl _, rfl⟩
    intro q hq
    simp only [Node.pairs, List.append_nil, List.mem_singleton] at hq
    subst hq; exact hpt
  | mk p i l r ihl ihr =>
    obtain ⟨hp, hl, hr⟩ := Node.WF_mk.mp hn
    rw [insertHelper_mk hp hpt]
    by_cases hlt : coord point (d % 3) < coord p (d % 3)
    · obtain ⟨l', e, hwf, hperm, hsz⟩ := ihl (d + 1) hl
      refine ⟨Node.mk p i l' r, by simp [hlt, e], Node.WF_mk.mpr ⟨hp, hwf, hr⟩, ?_, ?_⟩
      · simp only [Node.pairs]
        refine (List.Perm.cons _ (List.Perm.append_right _ hperm)).trans ?_
        exact List.Perm.swap _ _ _
      · simp only [Node.size, hsz]; omega
    · obtain ⟨r', e, hwf, hperm, hsz⟩ := ihr (d + 1) hr
      refine ⟨Node.mk p i l r', by simp [hlt, e], Node.WF_mk.mpr ⟨hp, hl, hwf⟩, ?_, ?_⟩
      · simp only [Node.pairs]
        refine (List.Perm.cons _ ((List.Perm.append_left _ hperm).trans ?_)).trans
          (List.Perm.swap _ _ _)
        exact List.perm_middle
      · simp only [Node.size, hsz]; omega

/-- Insertion keeps the k-d ordering invariant. -/
theorem insertHelper_inv (n : Node) (d : Nat) (point : Point) (id : Int)
    (hn : n.WF) (hpt : 3 ≤ point.length) (hinv : n.Inv d) (n' : Node)
    (e : insertHelper n d point id = some n') : n'.Inv d := by
  induction n generalizing d n' with
  | null =>
    simp only [insertHelper_null, Option.some.injEq] at e
    subst e
    simp [Node.Inv, Node.pairs]
  | mk p i l r ihl ihr =>
    obtain ⟨hp, hl, hr⟩ := Node.WF_mk.mp hn
    obtain ⟨h1, h2, h3, h4⟩ := hinv
    rw [insertHelper_mk hp hpt] at e
    by_cases hlt : coord point (d % 3) < coord p (d % 3)
    · obtain ⟨l', el, -, hperm, -⟩ := insertHelper_spec l (d + 1) point id hl hpt
      simp only [hlt, el, if_true, Option.map_some', Option.some.injEq] at e
      subst e
      refine ⟨?_, h2, ihl (d + 1) hl h3 l' el, h4⟩
      intro q hq
      rcases List.mem_cons.mp (hperm.mem_iff.mp hq) with rfl | hq'
      · exact hlt
      · exact h1 q hq'
    · obtain ⟨r', er, -, hperm, -⟩ := insertHelper_spec r (d + 1) point id hr hpt
      simp only [hlt, er, if_false, Option.map_some', Option.some.injEq] at e
      subst e
      refine ⟨h1, ?_, h3, ihr (d + 1) hr h4 r' er⟩
      intro q hq
      rcases List.mem_cons.mp (hperm.mem_iff.mp hq) with rfl | hq'
      · exact not_lt.mp hlt
      · exact h2 q hq'

theorem Node.label_null (path : List Side) : Node.null.label path = none := by
  cases path <;> rfl

/-- Insertion changes the tree at exactly one position: a position that held
no node now holds a childless node with the new pair. -/
theorem insertHelper_label (n : Node) (d : Nat) (point : Point) (id : Int)
    (hn : n.WF) (hpt : 3 ≤ point.length) (n' : Node)
    (e : insertHelper n d point id = some n') :
    ∃ pos, n.label pos = none ∧ n'.label pos = some (point, id) ∧
      n'.label (pos ++ [Side.left]) = none ∧ n'.label (pos ++ [Side.right]) = none ∧
      ∀ path, path ≠ pos → n'.label path = n.label path := by
  induction n generalizing d n' with
  | null =>
    simp only [insertHelper_null, Option.some.injEq] at e
    subst e
    refine ⟨[], rfl, rfl, rfl, rfl, ?_⟩
    intro path hpath
    cases path with
    | nil => exact absurd rfl hpath
    | cons s rest => cases s <;> simp [Node.label, Node.label_null]
  | mk p i l r ihl ihr =>
    obtain ⟨hp, hl, hr⟩ := Node.WF_mk.mp hn
    rw [insertHelper_mk hp hpt] at e
    by_cases hlt : coord point (d % 3) < coord p (d % 3)
    · obtain ⟨l', el, -⟩ := insertHelper_spec l (d + 1) point id hl hpt
      simp only [hlt, el, if_true, Option.map_some', Option.some.injEq] at e
      subst e
      obtain ⟨pos, h1, h2, h3, h4, h5⟩ := ihl (d + 1) hl l' el
      refine ⟨Side.left :: pos, h1, h2, h3, h4, ?_⟩
      intro path hpath
      cases path with
      | nil => rfl
      | cons s rest =>
        cases s with
        | left => exact h5 rest (fun h => hpath (by rw [h]))
        | right => rfl
    · obtain ⟨r', er, -⟩ := insertHelper_spec r (d + 1) point id hr hpt
      simp only [hlt, er, if_false, Option.map_some', Option.some.injEq] at e
      subst e
      obtain ⟨pos, h1, h2, h3, h4, h5⟩ := ihr (d + 1) hr r' er
      refine ⟨Side.right :: pos, h1, h2, h3, h4, ?_⟩
      intro path hpath
      cases path with
      | nil => rfl
      | cons s rest =>
        cases s with
        | left => rfl
        | right => exact h5 rest (fun h => hpath (by rw [h]))

/-- Inserting a list of well-formed pairs into a well-formed tree succeeds and
stores exactly the old pairs and the new ones, keeping the invariant. -/
theorem insertAll_spec (ops : List (Point × Int)) (tree : KdTree)
    (htree : tree.root.WF) (hops : ∀ q ∈ ops, 3 ≤ q.1.length) :
    ∃ tree', insertAll tree ops = some tree' ∧ tree'.root.WF ∧
      tree'.root.pairs.Perm (tree.root.pairs ++ ops) ∧ (tree.Inv → tree'.Inv) := by
  induction ops generalizing tree with
  | nil => exact ⟨tree, rfl, htree, by simp, id⟩
  | cons op rest ih =>
    obtain ⟨p, i⟩ := op
    have hp : 3 ≤ p.length := hops (p, i) (List.mem_cons_self _ _)
    obtain ⟨n', e, hwf, hperm, -⟩ := insertHelper_spec tree.root 0 p i htree hp
    obtain ⟨t2, e2, hwf2, hperm2, hinv2⟩ :=
      ih ⟨n'⟩ hwf (fun q hq => hops q (List.mem_cons_of_mem _ hq))
    refine ⟨t2, by simp [insertAll, KdTree.insert, e, e2], hwf2, ?_, ?_⟩
    · refine hperm2.trans ?_
      refine (List.Perm.append_right rest hperm).trans ?_
      simpa using (List.perm_middle).symm
    · intro hinv
      exact hinv2 (insertHelper_inv tree.root 0 p i htree hp hinv n' e)

theorem empty_WF : KdTree.empty.root.WF := by
  intro q hq; simp [KdTree.empty, Node.pairs] at hq

theorem F32.lt_fin_of_le {x : F32} {a b : ℚ} (h : F32.le x (F32.fin a) = true)
    (hab : a < b) : F32.lt x (F32.fin b) = true := by
  cases x with
  | fin c =>
    simp only [F32.le, F32.lt, decide_eq_true_eq] at h ⊢
    exact lt_of_le_of_lt h hab
  | pinf => simp [F32.le] at h
  | ninf => rfl
  | nan => simp [F32.le] at h

theorem F32.le_fin_of_le {y : F32} {a b : ℚ} (h : F32.le (F32.fin a) y = true)
    (hba : b ≤ a) : F32.le (F32.fin b) y = true := by
  cases y with
  | fin c =>
    simp only [F32.le, decide_eq_true_eq] at h ⊢
    exact le_trans hba h
  | pinf => rfl
  | ninf => simp [F32.le] at h
  | nan => simp [F32.le] at h

theorem axisIn_eq {p target : Point} (hp : 3 ≤ p.length) (ht : 3 ≤ target.length)
    {k : Nat} (hk : k < 3) (tol : ℚ) :
    axisIn p target k tol = some (axisTest p target k tol) := by
  simp only [axisIn, axisTest, getElem?_coord hp hk, getElem?_coord ht hk]

theorem inCube_eq {p target : Point} (hp : 3 ≤ p.length) (ht : 3 ≤ target.length)
    (tol : ℚ) : inCube p target tol = some (cubeTest p target tol) := by
  rw [inCube, cubeTest, axisIn_eq hp ht (by decide : 0 < 3), axisIn_eq hp ht (by decide : 1 < 3),
    axisIn_eq hp ht (by decide : 2 < 3)]
  cases axisTest p target 0 tol <;> cases axisTest p target 1 tol <;>
    cases axisTest p target 2 tol <;> rfl

theorem distSq_eq {p target : Point} (hp : 3 ≤ p.length) (ht : 3 ≤ target.length) :
    distSq p target = some (floatDistSq p target) := by
  simp only [distSq, floatDistSq, getElem?_coord hp (by decide : 0 < 3),
    getElem?_coord hp (by decide : 1 < 3), getElem?_coord hp (by decide : 2 < 3),
    getElem?_coord ht (by decide : 0 < 3), getElem?_coord ht (by decide : 1 < 3),
    getElem?_coord ht (by decide : 2 < 3)]

/-- On points with three coordinates `near` is the pair of tests of the source. -/
theorem reported_iff_near {p target : Point} (hp : 3 ≤ p.length) (ht : 3 ≤ target.length)
    (tol : ℚ) (i : Int) : Reported p target tol ↔ near target tol (p, i) = true := by
  simp [Reported, near, nearNoCube, inCube_eq hp ht, distSq_eq hp ht]

/-- A point that passes the cube test passes it on each axis. -/
theorem axis_of_near {target : Point} {tol : ℚ} {q : Point × Int}
    (h : near target tol q = true) {k : Nat} (hk : k < 3) :
    axisTest q.1 target k tol = true := by
  simp only [near, cubeTest, Bool.and_eq_true] at h
  interval_cases k
  · exact h.1.1.1
  · exact h.1.1.2
  · exact h.1.2

/-- The descent goes left at a node when a point with a smaller coordinate on
the axis passes the cube test there: both compare with the same rounded
`target[k] - tol`. -/
theorem goesLeft_of_axisTest {p q target : Point} {k : Nat} {tol : ℚ}
    (h : axisTest q target k tol = true) (hlt : coord q k < coord p k) :
    goesLeft p target k tol = true := by
  simp only [axisTest, Bool.and_eq_true] at h
  exact F32.lt_fin_of_le h.1 hlt

/-- The descent goes right at a node when a point with a coordinate at least
as large on the axis passes the cube test there. -/
theorem goesRight_of_axisTest {p q target : Point} {k : Nat} {tol : ℚ}
    (h : axisTest q target k tol = true) (hle : coord p k ≤ coord q k) :
    goesRight p target k tol = true := by
  simp only [axisTest, Bool.and_eq_true] at h
  exact F32.le_fin_of_le h.2 hle

/-- Lines 129-139: the id is appended exactly when the point passes the tests. -/
theorem visit_eq {p target : Point} (hp : 3 ≤ p.length) (ht : 3 ≤ target.length)
    (tol : ℚ) (i : Int) (ids : List Int) :
    ((inCube p target tol).bind fun c =>
      (if c then (distSq p target).map
          (fun s => if withinTol s tol then ids ++ [i] else ids)
        else some ids)) =
      some (if near target tol (p, i) then ids ++ [i] else ids) := by
  rw [inCube_eq hp ht, distSq_eq hp ht]
  cases hc : cubeTest p target tol <;> simp [near, nearNoCube, hc]

theorem searchHelper_mk {p target : Point} (hp : 3 ≤ p.length) (ht : 3 ≤ target.length)
    (i : Int) (l r : Node) (d : Nat) (tol : ℚ) (ids : List Int) :
    searchHelper target (Node.mk p i l r) d tol ids =
      ((if goesLeft p target (d % 3) tol then
          searchHelper target l (d + 1) tol (if near target tol (p, i) then ids ++ [i] else ids)
        else some (if near target tol (p, i) then ids ++ [i] else ids)).bind fun ids2 =>
        if goesRight p target (d % 3) tol then
          searchHelper target r (d + 1) tol ids2
        else some ids2) := by
  have hd : d % 3 < 3 := Nat.mod_lt _ (by decide)
  have hv := visit_eq hp ht tol i ids
  rw [searchHelper, ← Option.bind_assoc, hv]
  simp only [Option.some_bind, getElem?_coord hp hd, getElem?_coord ht hd, goesLeft, goesRight]

theorem scan_mk (target : Point) (tol : ℚ) (p : Point) (i : Int) (l r : Node) :
    scan target tol (Node.mk p i l r) =
      (if near target tol (p, i) then [i] else []) ++ (scan target tol l ++ scan target tol r) := by
  unfold scan
  by_cases h : near target tol (p, i) = true <;>
    simp [Node.pairs, List.filter_cons, h, List.filter_append]

/-- On any well-formed tree the search succeeds and appends a sublist of the scan. -/
theorem searchHelper_sub (target : Point) (ht : 3 ≤ target.length) (tol : ℚ) (n : Node)
    (hn : n.WF) (d : Nat) (ids : List Int) :
    ∃ found, searchHelper target n d tol ids = some (ids ++ found) ∧
      found.Sublist (scan target tol n) := by
  induction n generalizing d ids with
  | null => exact ⟨[], by simp [searchHelper], by simp [scan, Node.pairs]⟩
  | mk p i l r ihl ihr =>
    obtain ⟨hp, hl, hr⟩ := Node.WF_mk.mp hn
    rw [searchHelper_mk hp ht, scan_mk]
    generalize hids1 : (if near target tol (p, i) = true then ids ++ [i] else ids) = ids1
    have e1 : ids1 = ids ++ (if near target tol (p, i) = true then [i] else []) := by
      rw [← hids1]; split_ifs <;> simp
    obtain ⟨fl, el, sl⟩ := ihl hl (d + 1) ids1
    have hleft : ∃ f2, (if goesLeft p target (d % 3) tol = true then
        searchHelper target l (d + 1) tol ids1 else some ids1) = some (ids1 ++ f2) ∧
        f2.Sublist (scan target tol l) := by
      split_ifs
      · exact ⟨fl, el, sl⟩
      · exact ⟨[], by simp, List.nil_sublist _⟩
    obtain ⟨f2, e2, s2⟩ := hleft
    obtain ⟨fr, er, sr⟩ := ihr hr (d + 1) (ids1 ++ f2)
    rw [e2, Option.some_bind]
    have hright : ∃ f3, (if goesRight p target (d % 3) tol = true then
        searchHelper target r (d + 1) tol (ids1 ++ f2) else some (ids1 ++ f2)) =
        some (ids1 ++ f2 ++ f3) ∧ f3.Sublist (scan target tol r) := by
      split_ifs
      · exact ⟨fr, er, sr⟩
      · exact ⟨[], by simp, List.nil_sublist _⟩
    obtain ⟨f3, e3, s3⟩ := hright
    refine ⟨(if near target tol (p, i) = true then [i] else []) ++ (f2 ++ f3), ?_, ?_⟩
    · rw [e3, e1]; simp [List.append_assoc]
    · exact List.Sublist.append (List.Sublist.refl _) (List.Sublist.append s2 s3)

theorem scan_eq_nil {target : Point} {tol : ℚ} {n : Node}
    (h : ∀ q ∈ n.pairs, near target tol q = false) : scan target tol n = [] := by
  unfold scan
  rw [List.map_eq_nil_iff, List.filter_eq_nil_iff]
  intro q hq
  simp [h q hq]

/-- On a tree with the k-d ordering invariant the search appends exactly the
scan: the descent never skips a stored point that passes the tests. -/
theorem searchHelper_scan (target : Point) (ht : 3 ≤ target.length) (tol : ℚ) (n : Node)
    (hn : n.WF) (d : Nat) (hinv : n.Inv d) (ids : List Int) :
    searchHelper target n d tol ids = some (ids ++ scan target tol n) := by
  induction n generalizing d ids with
  | null => simp [searchHelper, scan, Node.pairs]
  | mk p i l r ihl ihr =>
    obtain ⟨hp, hl, hr⟩ := Node.WF_mk.mp hn
    obtain ⟨h1, h2, h3, h4⟩ := hinv
    have hd : d % 3 < 3 := Nat.mod_lt _ (by decide)
    rw [searchHelper_mk hp ht, scan_mk]
    generalize hids1 : (if near target tol (p, i) = true then ids ++ [i] else ids) = ids1
    have e1 : ids1 = ids ++ (if near target tol (p, i) = true then [i] else []) := by
      rw [← hids1]; split_ifs <;> simp
    have hleft : (if goesLeft p target (d % 3) tol = true then
        searchHelper target l (d + 1) tol ids1 else some ids1) =
        some (ids1 ++ scan target tol l) := by
      split_ifs with hc
      · exact ihl hl (d + 1) h3 ids1
      · have hnil : scan target tol l = [] := by
          apply scan_eq_nil
          intro q hq
          by_contra hnear
          have hnear' : near target tol q = true := by simpa using hnear
          exact hc (goesLeft_of_axisTest (axis_of_near hnear' hd) (h1 q hq))
        rw [hnil, List.append_nil]
    have hright : (if goesRight p target (d % 3) tol = true then
        searchHelper target r (d + 1) tol (ids1 ++ scan target tol l)
        else some (ids1 ++ scan target tol l)) =
        some (ids1 ++ scan target tol l ++ scan target tol r) := by
      split_ifs with hc
      · exact ihr hr (d + 1) h4 _
      · have hnil : scan target tol r = [] := by
          apply scan_eq_nil
          intro q hq
          by_contra hnear
          have hnear' : near target tol q = true := by simpa using hnear
          exact hc (goesRight_of_axisTest (axis_of_near hnear' hd) (h2 q hq))
        rw [hnil, List.append_nil]
    rw [hleft, Option.some_bind, hright, e1]
    simp [List.append_assoc]

theorem mem_scan {target : Point} {tol : ℚ} {n : Node} {id : Int} :
    id ∈ scan target tol n ↔ ∃ p, (p, id) ∈ n.pairs ∧ near target tol (p, id) = true := by
  simp only [scan, List.mem_map, List.mem_filter]
  constructor
  · rintro ⟨⟨p, i⟩, ⟨hq, hnear⟩, rfl⟩
    exact ⟨p, hq, hnear⟩
  · rintro ⟨p, hq, hnear⟩
    exact ⟨(p, id), ⟨hq, hnear⟩, rfl⟩

/-- Membership in the scan of a well-formed tree, in terms of the tests of the
source. -/
theorem mem_scan_reported {target : Point} (ht : 3 ≤ target.length) {tol : ℚ} {n : Node}
    (hn : n.WF) {id : Int} :
    id ∈ scan target tol n ↔ ∃ p, (p, id) ∈ n.pairs ∧ Reported p target tol := by
  rw [mem_scan]
  constructor
  · rintro ⟨p, hq, h⟩
    exact ⟨p, hq, (reported_iff_near (hn (p, id) hq) ht tol id).mpr h⟩
  · rintro ⟨p, hq, h⟩
    exact ⟨p, hq, (reported_iff_near (hn (p, id) hq) ht tol id).mp h⟩

theorem getAt_isSome {α : Type} {v : List α} {i : Int} (h0 : 0 ≤ i) (h1 : i < v.length) :
    ∃ x, getAt v i = some x := by
  have h : i.toNat < v.length := (Int.toNat_lt h0).mpr h1
  exact ⟨v[i.toNat], by simp [getAt, h0, List.getElem?_eq_getElem h]⟩

theorem getAt_range {α : Type} {v : List α} {i : Int} {x : α} (h : getAt v i = some x) :
    0 ≤ i ∧ i < v.length := by
  unfold getAt at h
  split_ifs at h with h0
  refine ⟨h0, ?_⟩
  have := (List.getElem?_eq_some_iff.mp h).1
  exact (Int.toNat_lt h0).mp this

theorem getAt_mem {α : Type} {v : List α} {i : Int} {x : α} (h : getAt v i = some x) :
    x ∈ v := by
  unfold getAt at h
  split_ifs at h
  obtain ⟨hlt, he⟩ := List.getElem?_eq_some_iff.mp h
  exact he ▸ List.getElem_mem hlt

theorem getAt_natCast {α : Type} (v : List α) (i : Nat) : getAt v (i : Int) = v[i]? := by
  simp [getAt]

theorem setAt_isSome {α : Type} {v : List α} {i : Int} (x : α) (h0 : 0 ≤ i)
    (h1 : i < v.length) : ∃ w, setAt v i x = some w := by
  have h : i.toNat < v.length := (Int.toNat_lt h0).mpr h1
  exact ⟨v.set i.toNat x, by simp [setAt, h0, h]⟩

theorem setAt_range {α : Type} {v w : List α} {i : Int} {x : α}
    (h : setAt v i x = some w) : 0 ≤ i ∧ i < v.length := by
  unfold setAt at h
  split_ifs at h with hc
  exact ⟨hc.1, (Int.toNat_lt hc.1).mp hc.2⟩

theorem setAt_length {α : Type} {v w : List α} {i : Int} {x : α}
    (h : setAt v i x = some w) : w.length = v.length := by
  unfold setAt at h
  split_ifs at h
  simp only [Option.some.injEq] at h
  rw [← h, List.length_set]

theorem getAt_setAt {α : Type} {v w : List α} {i : Int} {x : α}
    (h : setAt v i x = some w) (k : Int) :
    getAt w k = if k = i then some x else getAt v k := by
  unfold setAt at h
  split_ifs at h with hc
  simp only [Option.some.injEq] at h
  subst h
  obtain ⟨h0, h1⟩ := hc
  unfold getAt
  by_cases hk : 0 ≤ k
  · by_cases hki : k = i
    · subst hki
      simp [hk, List.getElem?_set, h1]
    · have hne : i.toNat ≠ k.toNat := by
        intro he
        apply hki
        rw [← Int.toNat_of_nonneg hk, ← Int.toNat_of_nonneg h0, he]
      simp [hk, hki, List.getElem?_set, hne]
  · have hki : k ≠ i := fun he => hk (he ▸ h0)
    simp [hk, hki]

theorem count_false_set (v : List Bool) (n : Nat) (h : n < v.length) :
    (v.set n true).count false + (if v[n]? = some false then 1 else 0) = v.count false := by
  induction v generalizing n with
  | nil => simp at h
  | cons b rest ih =>
    cases n with
    | zero => cases b <;> simp
    | succ m =>
      have hm : m < rest.length := by simpa using h
      have := ih m hm
      cases b <;> simp [List.count_cons] at this ⊢ <;> omega

theorem count_false_setAt {v w : List Bool} {i : Int} (h : setAt v i true = some w) :
    w.count false + (if getAt v i = some false then 1 else 0) = v.count false := by
  have hr := setAt_range h
  unfold setAt at h
  split_ifs at h with hc
  simp only [Option.some.injEq] at h
  subst h
  have := count_false_set v i.toNat hc.2
  simpa [getAt, hc.1] using this

theorem Extends.refl (c : List Int) (P : List Bool) : Extends c P [] (c, P) where
  cluster_eq := by simp
  length_eq := rfl
  nodup := List.nodup_nil
  fresh := by simp
  marked := by simp
  count := by simp

theorem Extends.unmarked {c : List Int} {P : List Bool} {new : List Int}
    {st : List Int × List Bool} (h : Extends c P new st) {x : Int}
    (hx : getAt st.2 x = some false) : getAt P x = some false := by
  obtain ⟨h0, h1⟩ := getAt_range hx
  rw [h.length_eq] at h1
  obtain ⟨b, hb⟩ := getAt_isSome h0 h1
  cases b with
  | false => exact hb
  | true =>
    have := (h.marked x).mpr (Or.inl hb)
    rw [hx] at this
    cases this

theorem Extends.trans {c : List Int} {P : List Bool} {new1 new2 : List Int}
    {st1 st2 : List Int × List Bool} (h1 : Extends c P new1 st1)
    (h2 : Extends st1.1 st1.2 new2 st2) : Extends c P (new1 ++ new2) st2 where
  cluster_eq := by rw [h2.cluster_eq, h1.cluster_eq, List.append_assoc]
  length_eq := by rw [h2.length_eq, h1.length_eq]
  nodup := by
    refine List.nodup_append.mpr ⟨h1.nodup, h2.nodup, ?_⟩
    intro x hx1 hx2
    have ha := (h1.marked x).mpr (Or.inr hx1)
    rw [h2.fresh x hx2] at ha
    cases ha
  fresh := by
    intro x hx
    rcases List.mem_append.mp hx with hx | hx
    · exact h1.fresh x hx
    · exact h1.unmarked (h2.fresh x hx)
  marked := by
    intro k
    rw [h2.marked, h1.marked, List.mem_append, or_assoc]
  count := by
    have := h1.count
    have := h2.count
    rw [List.length_append]
    omega

theorem Extends.mark {c : List Int} {Q Q1 : List Bool} {id : Int} {new : List Int}
    {st : List Int × List Bool} (hset : setAt Q id true = some Q1)
    (hid : getAt Q id = some false) (h : Extends (c ++ [id]) Q1 new st) :
    Extends c Q (id :: new) st where
  cluster_eq := by rw [h.cluster_eq, List.append_assoc]; rfl
  length_eq := by rw [h.length_eq, setAt_length hset]
  nodup := by
    refine List.nodup_cons.mpr ⟨?_, h.nodup⟩
    intro hmem
    have := h.fresh id hmem
    rw [getAt_setAt hset] at this
    simp at this
  fresh := by
    intro x hx
    rcases List.mem_cons.mp hx with rfl | hx
    · exact hid
    · have := h.fresh x hx
      rw [getAt_setAt hset] at this
      split_ifs at this with he
      · cases this
      · exact this
  marked := by
    intro k
    rw [h.marked, getAt_setAt hset, List.mem_cons]
    by_cases hk : k = id
    · simp [hk]
    · simp [hk]
  count := by
    have h1 := h.count
    have h2 := count_false_setAt hset
    rw [if_pos hid] at h2
    rw [List.length_cons]
    omega

theorem clusterHelper_succ (fuel : Nat) (indice : Int) (points : List Point)
    (cluster : List Int) (processed : List Bool) (tree : KdTree) (tol : ℚ) :
    clusterHelper (fuel + 1) indice points cluster processed tree tol =
      (setAt processed indice true).bind fun processed1 =>
      (getAt points indice).bind fun pt =>
      (tree.search pt tol).bind fun nearest =>
      forNearest (visit fuel points tree tol) nearest (cluster ++ [indice], processed1) := rfl

theorem search_total {points : List Point} {tree : KdTree} (hctx : Ctx points tree)
    {pt : Point} (hpt : 3 ≤ pt.length) (tol : ℚ) :
    ∃ nearest, tree.search pt tol = some nearest ∧
      ∀ id ∈ nearest, 0 ≤ id ∧ id < points.length := by
  obtain ⟨found, e, hsub⟩ := searchHelper_sub pt hpt tol tree.root hctx.tree_wf 0 []
  refine ⟨found, by simpa [KdTree.search] using e, ?_⟩
  intro id hid
  have hmem := hsub.subset hid
  simp only [scan, List.mem_map, List.mem_filter] at hmem
  obtain ⟨q, ⟨hq, -⟩, rfl⟩ := hmem
  exact hctx.ids_in_range q hq

/-- The loop over `nearest`, given the specification of the nested calls. -/
theorem forNearest_spec {points : List Point} {tree : KdTree} (tol : ℚ) (fuel : Nat)
    (ih : ∀ (indice : Int) (cluster : List Int) (P P1 : List Bool),
      P.length = points.length → setAt P indice true = some P1 → P1.count false < fuel →
      ∃ new st, clusterHelper fuel indice points cluster P tree tol = some st ∧
        HelperPost points tree tol indice (cluster ++ [indice]) P1 new st)
    (nearest : List Int) (hn : ∀ id ∈ nearest, 0 ≤ id ∧ id < points.length)
    (c : List Int) (Q : List Bool) (hQ : Q.length = points.length)
    (hcount : Q.count false ≤ fuel) :
    ∃ new st, forNearest (visit fuel points tree tol) nearest (c, Q) = some st ∧
      LoopPost points tree tol nearest c Q new st := by
  induction nearest generalizing c Q with
  | nil =>
    refine ⟨[], (c, Q), rfl, Extends.refl c Q, ?_, ?_, ?_⟩ <;> simp
  | cons id rest ihrest =>
    obtain ⟨hid0, hid1⟩ := hn id (List.mem_cons_self _ _)
    have hrest : ∀ x ∈ rest, 0 ≤ x ∧ x < points.length :=
      fun x hx => hn x (List.mem_cons_of_mem _ hx)
    obtain ⟨b, hb⟩ := getAt_isSome hid0 (hQ ▸ hid1)
    cases b with
    | true =>
      obtain ⟨new, st, e, post⟩ := ihrest hrest c Q hQ hcount
      refine ⟨new, st, ?_, post.ext, ?_, post.closed, ?_⟩
      · simp [forNearest, visit, hb, e]
      · intro x hx
        obtain ⟨j, hj, hr⟩ := post.reach x hx
        exact ⟨j, List.mem_cons_of_mem _ hj, hr⟩
      · intro j hj
        rcases List.mem_cons.mp hj with rfl | hj
        · exact (post.ext.marked _).mpr (Or.inl hb)
        · exact post.seen j hj
    | false =>
      obtain ⟨Q1, hset⟩ := setAt_isSome true hid0 (hQ ▸ hid1)
      have hc1 := count_false_setAt hset
      rw [if_pos hb] at hc1
      obtain ⟨new1, st1, e1, post1⟩ := ih id c Q Q1 hQ hset (by omega)
      have hlen1 : st1.2.length = points.length := by
        rw [post1.ext.length_eq, setAt_length hset, hQ]
      have hcount1 : st1.2.count false ≤ fuel := by
        have := post1.ext.count
        omega
      obtain ⟨new2, st2, e2, post2⟩ := ihrest hrest st1.1 st1.2 hlen1 hcount1
      have hext1 : Extends c Q (id :: new1) st1 := Extends.mark hset hb post1.ext
      have hmono : ∀ v, getAt st1.2 v = some true → getAt st2.2 v = some true :=
        fun v hv => (post2.ext.marked v).mpr (Or.inl hv)
      refine ⟨(id :: new1) ++ new2, st2, ?_, hext1.trans post2.ext, ?_, ?_, ?_⟩
      · simp [forNearest, visit, hb, e1, e2]
      · intro x hx
        rcases List.mem_append.mp hx with hx | hx
        · refine ⟨id, List.mem_cons_self _ _, ?_⟩
          rcases List.mem_cons.mp hx with rfl | hx
          · exact Relation.ReflTransGen.refl
          · exact post1.reach x hx
        · obtain ⟨j, hj, hr⟩ := post2.reach x hx
          exact ⟨j, List.mem_cons_of_mem _ hj, hr⟩
      · intro x hx v hv
        rcases List.mem_append.mp hx with hx | hx
        · exact hmono v (post1.closed x (List.mem_cons.mp hx) v hv)
        · exact post2.closed x hx v hv
      · intro j hj
        rcases List.mem_cons.mp hj with rfl | hj
        · exact hmono _ ((hext1.marked _).mpr (Or.inr (List.mem_cons_self _ _)))
        · exact post2.seen j hj

/-- One call of `clusterHelper` with enough nesting depth: it returns, and the
ids it adds are exactly the newly marked ones, each reached from `indice`, and
every id reported around one of them is marked at the end. -/
theorem clusterHelper_spec {points : List Point} {tree : KdTree} (hctx : Ctx points tree)
    (tol : ℚ) (fuel : Nat) :
    ∀ (indice : Int) (cluster : List Int) (P P1 : List Bool),
      P.length = points.length → setAt P indice true = some P1 → P1.count false < fuel →
      ∃ new st, clusterHelper fuel indice points cluster P tree tol = some st ∧
        HelperPost points tree tol indice (cluster ++ [indice]) P1 new st := by
  induction fuel with
  | zero => intro _ _ _ _ _ _ h; exact absurd h (Nat.not_lt_zero _)
  | succ fuel ih =>
    intro indice cluster P P1 hP hset hcount
    obtain ⟨h0, h1⟩ := setAt_range hset
    obtain ⟨pt, hpt⟩ := getAt_isSome h0 (hP ▸ h1)
    have hpt3 : 3 ≤ pt.length := hctx.points_wf pt (getAt_mem hpt)
    obtain ⟨nearest, hsearch, hrange⟩ := search_total hctx hpt3 tol
    have hlen1 : P1.length = points.length := by rw [setAt_length hset, hP]
    obtain ⟨new, st, e, post⟩ := forNearest_spec tol fuel ih nearest hrange
      (cluster ++ [indice]) P1 hlen1 (by omega)
    refine ⟨new, st, ?_, post.ext, ?_, ?_⟩
    · simp [clusterHelper_succ, hset, hpt, hsearch, e]
    · intro x hx
      obtain ⟨j, hj, hr⟩ := post.reach x hx
      exact Relation.ReflTransGen.head ⟨pt, nearest, hpt, hsearch, hj⟩ hr
    · intro x hx v hv
      rcases hx with rfl | hx
      · obtain ⟨pt', nearest', hpt', hsearch', hv'⟩ := hv
        rw [hpt] at hpt'
        cases hpt'
        rw [hsearch] at hsearch'
        cases hsearch'
        exact post.seen v hv'
      · exact post.closed x hx v hv

theorem LoopInv.init (points : List Point) (tree : KdTree) (tol : ℚ) :
    LoopInv points tree tol 0 [] (List.replicate points.length false) where
  len := by simp
  done := by intro j hj; exact absurd hj (Nat.not_lt_zero _)
  covered := by
    intro k
    simp only [List.not_mem_nil, false_and, exists_false, iff_false]
    intro h
    have := getAt_mem h
    simp at this
  closed := by
    intro x h
    have := getAt_mem h
    simp at this
  shape := by simp
  heads := List.Pairwise.nil
  disjoint := List.Pairwise.nil
  noedge := List.Pairwise.nil

theorem LoopInv.skip {points : List Point} {tree : KdTree} {tol : ℚ} {i : Nat}
    {cs : List (List Int)} {P : List Bool} (h : LoopInv points tree tol i cs P)
    (hi : getAt P (i : Int) = some true) : LoopInv points tree tol (i + 1) cs P where
  len := h.len
  done := by
    intro j hj
    rcases Nat.lt_succ_iff_lt_or_eq.mp hj with hj | rfl
    · exact h.done j hj
    · exact hi
  covered := h.covered
  closed := h.closed
  shape := by
    intro c hc
    obtain ⟨s, rest, e, h0, h1, h2, h3, h4⟩ := h.shape c hc
    exact ⟨s, rest, e, h0, by push_cast; omega, h2, h3, h4⟩
  heads := h.heads
  disjoint := h.disjoint
  noedge := h.noedge

theorem LoopInv.step {points : List Point} {tree : KdTree} {tol : ℚ} {i : Nat}
    {cs : List (List Int)} {P P1 : List Bool} (h : LoopInv points tree tol i cs P)
    (hi : getAt P (i : Int) = some false) (hset : setAt P (i : Int) true = some P1)
    {new : List Int} {st : List Int × List Bool}
    (post : HelperPost points tree tol (i : Int) ([] ++ [(i : Int)]) P1 new st) :
    st.1 = (i : Int) :: new ∧
      LoopInv points tree tol (i + 1) (cs ++ [(i : Int) :: new]) st.2 := by
  have hext : Extends [] P ((i : Int) :: new) st := Extends.mark hset hi post.ext
  have hfresh : ∀ c ∈ cs, ∀ x ∈ c, x ∉ (i : Int) :: new := by
    intro c hc x hx hx'
    have h1 := (h.covered x).mpr ⟨c, hc, hx⟩
    rw [hext.fresh x hx'] at h1
    cases h1
  refine ⟨by simpa using hext.cluster_eq, ?_⟩
  refine ⟨by rw [hext.length_eq, h.len], ?_, ?_, ?_, ?_, ?_, ?_, ?_⟩
  · intro j hj
    rcases Nat.lt_succ_iff_lt_or_eq.mp hj with hj | rfl
    · exact (hext.marked _).mpr (Or.inl (h.done j hj))
    · exact (hext.marked _).mpr (Or.inr (List.mem_cons_self _ _))
  · intro k
    rw [hext.marked, h.covered]
    simp only [List.mem_append, List.mem_singleton]
    constructor
    · rintro (⟨c, hc, hk⟩ | hk)
      · exact ⟨c, Or.inl hc, hk⟩
      · exact ⟨_, Or.inr rfl, hk⟩
    · rintro ⟨c, hc | rfl, hk⟩
      · exact Or.inl ⟨c, hc, hk⟩
      · exact Or.inr hk
  · intro x hx v hv
    rcases (hext.marked x).mp hx with hx | hx
    · exact (hext.marked v).mpr (Or.inl (h.closed x hx v hv))
    · exact post.closed x (List.mem_cons.mp hx) v hv
  · intro c hc
    rcases List.mem_append.mp hc with hc | hc
    · obtain ⟨s, rest, e, h0, h1, h2, h3, h4⟩ := h.shape c hc
      exact ⟨s, rest, e, h0, by push_cast; omega, h2, h3, h4⟩
    · rw [List.mem_singleton] at hc
      subst hc
      refine ⟨(i : Int), new, rfl, Int.natCast_nonneg _, by push_cast; omega, hext.nodup,
        ?_, post.reach⟩
      intro x hx
      have hxf := hext.fresh x (List.mem_cons_of_mem _ hx)
      have hne : x ≠ (i : Int) := by
        rintro rfl
        exact (List.nodup_cons.mp hext.nodup).1 hx
      obtain ⟨hx0, -⟩ := getAt_range hxf
      by_contra hlt
      have hlt' : x.toNat < i := by
        have : x < (i : Int) := lt_of_le_of_ne (not_lt.mp hlt) hne
        omega
      have := h.done x.toNat hlt'
      rw [Int.toNat_of_nonneg hx0, hxf] at this
      cases this
  · refine List.pairwise_append.mpr ⟨h.heads, List.pairwise_singleton _ _, ?_⟩
    intro a ha b hb
    rw [List.mem_singleton] at hb
    subst hb
    obtain ⟨s, rest, e, -, h1, -⟩ := h.shape a ha
    exact ⟨s, (i : Int), by rw [e]; rfl, rfl, h1⟩
  · refine List.pairwise_append.mpr ⟨h.disjoint, List.pairwise_singleton _ _, ?_⟩
    intro a ha b hb
    rw [List.mem_singleton] at hb
    subst hb
    exact hfresh a ha
  · refine List.pairwise_append.mpr ⟨h.noedge, List.pairwise_singleton _ _, ?_⟩
    intro a ha b hb
    rw [List.mem_singleton] at hb
    subst hb
    intro x hx v hv hedge
    have h1 := h.closed x ((h.covered x).mpr ⟨a, ha, hx⟩) v hedge
    rw [hext.fresh v hv] at h1
    cases h1

/-- The `while` loop returns, and the invariant holds at the end. -/
theorem clusterLoop_spec {points : List Point} {tree : KdTree} (hctx : Ctx points tree)
    (tol : ℚ) (left : Nat) :
    ∀ (i : Nat) (cs : List (List Int)) (P : List Bool), left + i = points.length →
      LoopInv points tree tol i cs P →
      ∃ out Pf, clusterLoop points tree tol left i cs P = some out ∧
        LoopInv points tree tol points.length out Pf := by
  induction left with
  | zero =>
    intro i cs P hi hinv
    have : i = points.length := by omega
    subst this
    exact ⟨cs, P, rfl, hinv⟩
  | succ left ih =>
    intro i cs P hi hinv
    have hlt : (i : Int) < P.length := by rw [hinv.len]; omega
    obtain ⟨b, hb⟩ := getAt_isSome (Int.natCast_nonneg i) hlt
    have hb' : P[i]? = some b := by rw [← getAt_natCast]; exact hb
    cases b with
    | true =>
      obtain ⟨out, Pf, e, hout⟩ := ih (i + 1) cs P (by omega) (hinv.skip hb)
      exact ⟨out, Pf, by simp [clusterLoop, hb', e], hout⟩
    | false =>
      obtain ⟨P1, hset⟩ := setAt_isSome true (Int.natCast_nonneg i) hlt
      have hc1 := count_false_setAt hset
      rw [if_pos hb] at hc1
      have hc2 : P.count false ≤ points.length := hinv.len ▸ List.count_le_length _ _
      obtain ⟨new, st, e1, post⟩ := clusterHelper_spec hctx tol points.length (i : Int) []
        P P1 hinv.len hset (by omega)
      obtain ⟨hst, hinv'⟩ := hinv.step hb hset post
      obtain ⟨out, Pf, e, hout⟩ := ih (i + 1) _ st.2 (by omega) hinv'
      refine ⟨out, Pf, ?_, hout⟩
      simp only [clusterLoop, hb', e1, Option.some_bind, hst]
      exact e

/-- Under the running hypotheses `euclideanCluster` returns, and the loop
invariant holds of its result. -/
theorem euclideanCluster_spec {points : List Point} {tree : KdTree} (hctx : Ctx points tree)
    (tol : ℚ) :
    ∃ out Pf, euclideanCluster points tree tol = some out ∧
      LoopInv points tree tol points.length out Pf :=
  clusterLoop_spec hctx tol points.length 0 [] _ (by omega) (LoopInv.init points tree tol)

theorem Ctx.of_hyps {points : List Point} {tree : KdTree}
    (hpts : ∀ p ∈ points, 3 ≤ p.length)
    (htree : ∀ q ∈ tree.root.pairs, 3 ≤ q.1.length ∧ 0 ≤ q.2 ∧ q.2 < points.length) :
    Ctx points tree :=
  ⟨hpts, fun q hq => (htree q hq).1, fun q hq => (htree q hq).2⟩

theorem mem_indexedFrom (ps : List Point) (k : Nat) (p : Point) (id : Int) :
    (p, id) ∈ indexedFrom k ps ↔ ∃ j : Nat, id = ((k + j : Nat) : Int) ∧ ps[j]? = some p := by
  induction ps generalizing k with
  | nil => simp [indexedFrom]
  | cons a rest ih =>
    simp only [indexedFrom, List.mem_cons, Prod.mk.injEq, ih]
    constructor
    · rintro (⟨rfl, rfl⟩ | ⟨j, hj, hp⟩)
      · exact ⟨0, by simp, by simp⟩
      · exact ⟨j + 1, by rw [hj]; push_cast; ring, by simpa using hp⟩
    · rintro ⟨j, hj, hp⟩
      cases j with
      | zero =>
        left
        simp only [List.getElem?_cons_zero, Option.some.injEq] at hp
        exact ⟨hp.symm, by simpa using hj⟩
      | succ m =>
        right
        exact ⟨m, by rw [hj]; push_cast; ring, by simpa using hp⟩

theorem mem_indexed (points : List Point) (p : Point) (id : Int) :
    (p, id) ∈ indexed points ↔ getAt points id = some p := by
  unfold indexed
  rw [mem_indexedFrom]
  constructor
  · rintro ⟨j, rfl, hp⟩
    simpa [getAt_natCast] using hp
  · intro h
    obtain ⟨h0, -⟩ := getAt_range h
    refine ⟨id.toNat, by simp [Int.toNat_of_nonneg h0], ?_⟩
    simpa [getAt, h0] using h

theorem Adj.symm {points : List Point} {tol : ℚ} : Symmetric (Adj points tol) := by
  rintro i j ⟨p, q, hp, hq, h⟩
  exact ⟨q, p, hq, hp, (distLe_comm p q tol).mp h⟩

/-! ## The claims on the k-d tree and the clustering -/

/-- C1 (amended): for a tree built from the empty tree by inserting
3-coordinate points, and a 3-coordinate target and a tolerance of any sign,
the inserts and the search return, and an id is in the result of the search
exactly when some inserted pair `(p, id)` passes the tests of lines 129 and
135 as the program computes them in `float`: `p` is in the cube with the
rounded bounds and the rounded distance is at most the tolerance.  The descent
of lines 141-144 never skips a stored point that passes these tests. -/
theorem search_reports_passing_pairs (ops : List (Point × Int)) (target : Point) (tol : ℚ)
    (hops : ∀ q ∈ ops, q.1.length = 3) (ht : target.length = 3) :
    ∃ tree ids, insertAll KdTree.empty ops = some tree ∧
      tree.search target tol = some ids ∧
      ∀ id, id ∈ ids ↔ ∃ p, (p, id) ∈ ops ∧ Reported p target tol := by
  obtain ⟨tree, e, hwf, hperm, hinv⟩ :=
    insertAll_spec ops KdTree.empty empty_WF (fun q hq => (hops q hq).ge)
  have hs := searchHelper_scan target ht.ge tol tree.root hwf 0 (hinv trivial) []
  refine ⟨tree, scan target tol tree.root, e, by simpa [KdTree.search] using hs, ?_⟩
  intro id
  rw [mem_scan_reported ht.ge hwf]
  have hmem : ∀ q, q ∈ tree.root.pairs ↔ q ∈ ops := by
    intro q
    rw [hperm.mem_iff]
    simp [KdTree.empty, Node.pairs]
  simp only [hmem]

/-- C1 (amended) at scenario A, target `(0,0,0)` and tolerance `3/2`, where the
search reports the ids 0, 1 and 2. -/
theorem search_reports_passing_pairs_witness :
    (∃ tree ids, insertAll KdTree.empty opsA = some tree ∧
      tree.search [0, 0, 0] (3 / 2) = some ids ∧
      ∀ id, id ∈ ids ↔ ∃ p, (p, id) ∈ opsA ∧ Reported p [0, 0, 0] (3 / 2)) ∧
    treeA.search [0, 0, 0] (3 / 2) = some [0, 1, 2] :=
  ⟨search_reports_passing_pairs opsA [0, 0, 0] (3 / 2) (by decide) (by decide), by decide!⟩

/-- C1, counterexample: the claim compares with the exact Euclidean distance.
With the point `(0.3f, 0.4f, 0)` stored under id 0, the search around the
origin with tolerance `0.5` reports id 0, though the exact distance is above
`0.5`: the squares round so that their sum is `0.25`.  And with the origin
stored, the search around `(3e19f, 0, 0)` with tolerance `3e19f` reports
nothing, though the exact distance equals the tolerance: the square overflows.
All coordinates and tolerances are `float`s. -/
theorem search_sound_complete_counterexample :
    ((∀ x ∈ pointF, F32.round x = F32.fin x) ∧ F32.round (1 / 2) = F32.fin (1 / 2) ∧
      insertAll KdTree.empty [(pointF, 0)] = some treeF ∧
      treeF.search [0, 0, 0] (1 / 2) = some [0] ∧
      ¬ ∃ p, (p, (0 : Int)) ∈ [(pointF, (0 : Int))] ∧ DistLe p [0, 0, 0] (1 / 2)) ∧
    (F32.round bigF = F32.fin bigF ∧
      insertAll KdTree.empty [([0, 0, 0], 0)] = some treeO ∧
      treeO.search [bigF, 0, 0] bigF = some [] ∧
      DistLe [0, 0, 0] [bigF, 0, 0] bigF) := by
  refine ⟨⟨by decide!, by decide!, by decide!, by decide!, ?_⟩,
    by decide!, by decide!, by decide!, (distLe_iff _ _ _).mpr (by decide!)⟩
  rintro ⟨p, hp, hd⟩
  simp only [List.mem_singleton, Prod.mk.injEq, and_true] at hp
  subst hp
  exact absurd ((distLe_iff _ _ _).mp hd) (by decide!)

/-- C2 (amended): when the tree is built from the empty tree by inserting
every `points[i]` with id `i` once, in any order, `euclideanCluster` returns,
and each output cluster consists of exactly the ids that a chain of steps
reaches from its first id and that are in no earlier cluster, a step from `k`
to `k'` being that point `k'` passes the tests of lines 129 and 135, as
computed in `float`, around point `k`.  When this step relation is symmetric
on the given points, two ids lie in the same output cluster exactly when such
a chain leads from one to the other. -/
theorem clusters_are_reachable_sets (points : List Point) (ops : List (Point × Int))
    (tol : ℚ) (hpts : ∀ p ∈ points, p.length = 3) (hops : ops.Perm (indexed points)) :
    ∃ tree cs, insertAll KdTree.empty ops = some tree ∧
      euclideanCluster points tree tol = some cs ∧
      (∀ pre c post, cs = pre ++ c :: post → ∃ s rest, c = s :: rest ∧
        ∀ x, x ∈ c ↔
          (Relation.ReflTransGen (Step points tol) s x ∧ ∀ c' ∈ pre, x ∉ c')) ∧
      (Symmetric (Step points tol) →
        ∀ i j : Int, 0 ≤ i → i < points.length → 0 ≤ j → j < points.length →
          ((∃ c ∈ cs, i ∈ c ∧ j ∈ c) ↔ Relation.ReflTransGen (Step points tol) i j)) := by
  have hops3 : ∀ q ∈ ops, 3 ≤ q.1.length := by
    intro q hq
    have := (mem_indexed points q.1 q.2).mp (hops.mem_iff.mp hq)
    exact (hpts q.1 (getAt_mem this)).ge
  obtain ⟨tree, e, hwf, hperm, hinv⟩ := insertAll_spec ops KdTree.empty empty_WF hops3
  have hpairs : ∀ p id, (p, id) ∈ tree.root.pairs ↔ getAt points id = some p := by
    intro p id
    rw [hperm.mem_iff, ← mem_indexed, ← hops.mem_iff]
    simp [KdTree.empty, Node.pairs]
  have hctx : Ctx points tree := by
    refine ⟨fun p hp => (hpts p hp).ge, hwf, ?_⟩
    rintro ⟨p, id⟩ hq
    exact getAt_range ((hpairs p id).mp hq)
  have hedge : ∀ u v, Edge points tree tol u v ↔ Step points tol u v := by
    intro u v
    constructor
    · rintro ⟨pt, nearest, hpt, hs, hv⟩
      have hpt3 : 3 ≤ pt.length := hctx.points_wf pt (getAt_mem hpt)
      have hscan := searchHelper_scan pt hpt3 tol tree.root hwf 0 (hinv trivial) []
      rw [KdTree.search, hscan] at hs
      simp only [List.nil_append, Option.some.injEq] at hs
      rw [← hs, mem_scan_reported hpt3 hwf] at hv
      obtain ⟨q, hq, hd⟩ := hv
      exact ⟨pt, q, hpt, (hpairs q v).mp hq, hd⟩
    · rintro ⟨pu, pv, hu, hv, hd⟩
      have hpt3 : 3 ≤ pu.length := hctx.points_wf pu (getAt_mem hu)
      have hscan := searchHelper_scan pu hpt3 tol tree.root hwf 0 (hinv trivial) []
      refine ⟨pu, scan pu tol tree.root, hu, by simpa [KdTree.search] using hscan, ?_⟩
      exact (mem_scan_reported hpt3 hwf).mpr ⟨pv, (hpairs pv v).mpr hv, hd⟩
  obtain ⟨cs, Pf, ecs, inv⟩ := euclideanCluster_spec hctx tol
  have hcover : ∀ k : Int, 0 ≤ k → k < points.length → ∃ c ∈ cs, k ∈ c := by
    intro k h0 h1
    have := inv.done k.toNat ((Int.toNat_lt h0).mpr h1)
    rw [Int.toNat_of_nonneg h0] at this
    exact (inv.covered k).mp this
  have hreach : ∀ u v, Relation.ReflTransGen (Edge points tree tol) u v →
      Relation.ReflTransGen (Step points tol) u v :=
    fun u v h => h.mono (fun a b hab => (hedge a b).mp hab)
  have htarget : ∀ u v, Step points tol u v → ∃ c ∈ cs, v ∈ c := by
    rintro u v ⟨-, q, -, hq, -⟩
    obtain ⟨hv0, hv1⟩ := getAt_range hq
    exact hcover v hv0 hv1
  refine ⟨tree, cs, e, ecs, ?_, ?_⟩
  · intro pre c post hcs
    have hc : c ∈ cs := by rw [hcs]; simp
    obtain ⟨s, rest, hshape, -, -, -, -, hr⟩ := inv.shape c hc
    have hsc : s ∈ c := by rw [hshape]; exact List.mem_cons_self _ _
    have hcs' : cs = (pre ++ [c]) ++ post := by rw [hcs]; simp
    have hdis := inv.disjoint
    rw [hcs] at hdis
    have hno := inv.noedge
    rw [hcs'] at hno
    refine ⟨s, rest, hshape, ?_⟩
    intro x
    constructor
    · intro hx
      refine ⟨?_, ?_⟩
      · rw [hshape] at hx
        rcases List.mem_cons.mp hx with rfl | hx
        · exact Relation.ReflTransGen.refl
        · exact hreach s x (hr x hx)
      · intro c' hc' hx'
        exact (List.pairwise_append.mp hdis).2.2 c' hc' c (List.mem_cons_self _ _) x hx' hx
    · rintro ⟨hchain, hfresh⟩
      have hU : ∃ c' ∈ pre ++ [c], x ∈ c' := by
        clear hfresh
        induction hchain with
        | refl => exact ⟨c, by simp, hsc⟩
        | @tail y z _ hstep ih =>
          obtain ⟨cy, hcy, hy⟩ := ih
          obtain ⟨cz, hcz, hz⟩ := htarget y z hstep
          rw [hcs'] at hcz
          rcases List.mem_append.mp hcz with hcz | hcz
          · exact ⟨cz, hcz, hz⟩
          · exact absurd ((hedge y z).mpr hstep)
              ((List.pairwise_append.mp hno).2.2 cy hcy cz hcz y hy z hz)
      obtain ⟨c', hc', hx⟩ := hU
      rcases List.mem_append.mp hc' with hc' | hc'
      · exact absurd hx (hfresh c' hc')
      · rw [List.mem_singleton] at hc'
        rw [← hc']; exact hx
  · intro hsym i j hi0 hi1 hj0 hj1
    have hclosed : ∀ c ∈ cs, ∀ x ∈ c, ∀ v, Step points tol x v → v ∈ c := by
      intro c hc x hx v hadj
      obtain ⟨c', hc', hv⟩ := htarget x v hadj
      by_cases hcc : c = c'
      · rw [hcc]; exact hv
      · exfalso
        have hsymm : Symmetric (fun a b : List Int =>
            (∀ x ∈ a, ∀ v ∈ b, ¬ Edge points tree tol x v) ∨
            (∀ x ∈ b, ∀ v ∈ a, ¬ Edge points tree tol x v)) := fun a b h => h.symm
        have hpw := inv.noedge.imp (S := fun a b : List Int =>
            (∀ x ∈ a, ∀ v ∈ b, ¬ Edge points tree tol x v) ∨
            (∀ x ∈ b, ∀ v ∈ a, ¬ Edge points tree tol x v)) (fun h => Or.inl h)
        rcases hpw.forall hsymm hc hc' hcc with h | h
        · exact h x hx v hv ((hedge x v).mpr hadj)
        · exact h v hv x hx ((hedge v x).mpr (hsym hadj))
    constructor
    · rintro ⟨c, hc, hic, hjc⟩
      obtain ⟨s, rest, hcs, -, -, -, -, hr⟩ := inv.shape c hc
      have hfrom : ∀ x ∈ c, Relation.ReflTransGen (Step points tol) s x := by
        intro x hx
        rw [hcs] at hx
        rcases List.mem_cons.mp hx with rfl | hx
        · exact Relation.ReflTransGen.refl
        · exact hreach s x (hr x hx)
      exact (Relation.ReflTransGen.symmetric hsym (hfrom i hic)).trans (hfrom j hjc)
    · intro hchain
      obtain ⟨c, hc, hic⟩ := hcover i hi0 hi1
      refine ⟨c, hc, hic, ?_⟩
      clear hj0 hj1
      induction hchain with
      | refl => exact hic
      | tail _ hstep ih => exact hclosed c hc _ ih _ hstep

/-- C2 (amended) at scenario A: the general statement for the four points
inserted in order, and the clusters `{0,1,2}` and `{3}` for tolerance `3/2`. -/
theorem clusters_are_reachable_sets_witness :
    (∃ tree cs, insertAll KdTree.empty opsA = some tree ∧
      euclideanCluster pointsA tree (3 / 2) = some cs ∧
      (∀ pre c post, cs = pre ++ c :: post → ∃ s rest, c = s :: rest ∧
        ∀ x, x ∈ c ↔
          (Relation.ReflTransGen (Step pointsA (3 / 2)) s x ∧ ∀ c' ∈ pre, x ∉ c')) ∧
      (Symmetric (Step pointsA (3 / 2)) →
        ∀ i j : Int, 0 ≤ i → i < pointsA.length → 0 ≤ j → j < pointsA.length →
          ((∃ c ∈ cs, i ∈ c ∧ j ∈ c) ↔
            Relation.ReflTransGen (Step pointsA (3 / 2)) i j))) ∧
    insertAll KdTree.empty opsA = some treeA ∧
    euclideanCluster pointsA treeA (3 / 2) = some [[0, 1, 2], [3]] :=
  ⟨clusters_are_reachable_sets pointsA opsA (3 / 2) (by decide) (List.Perm.refl _),
    by decide!, by decide!⟩

/-- C2, counterexample: the claim links ids by exact distances.  For the points
`(0,0,0)` and `(0.3f, 0.4f, 0)` and tolerance `0.5`, all of them `float`s, the
program puts both ids into one cluster, though the exact distance of the two
points is above `0.5`, so that no chain of within-tolerance steps leads from
id 0 to id 1. -/
theorem clusters_are_components_counterexample :
    (∀ p ∈ pointsF, ∀ x ∈ p, F32.round x = F32.fin x) ∧
    insertAll KdTree.empty (indexed pointsF) = some treeF2 ∧
    euclideanCluster pointsF treeF2 (1 / 2) = some [[0, 1]] ∧
    ¬ Relation.ReflTransGen (Adj pointsF (1 / 2)) 0 1 := by
  refine ⟨by decide!, by decide!, by decide!, ?_⟩
  have key : ∀ x, Relation.ReflTransGen (Adj pointsF (1 / 2)) 0 x → x = 0 := by
    intro x h
    induction h with
    | refl => rfl
    | @tail y z _ hstep ih =>
      subst ih
      obtain ⟨p, q, hp, hq, hd⟩ := hstep
      obtain ⟨hz0, hz1⟩ := getAt_range hq
      have hz : z = 0 ∨ z = 1 := by
        have : z < 2 := hz1
        omega
      rcases hz with rfl | rfl
      · rfl
      · exfalso
        have hp' : p = [0, 0, 0] := by
          have : getAt pointsF 0 = some [0, 0, 0] := rfl
          rw [this] at hp
          exact (Option.some.inj hp).symm
        have hq' : q = pointF := by
          have : getAt pointsF 1 = some pointF := rfl
          rw [this] at hq
          exact (Option.some.inj hq).symm
        subst hp' hq'
        exact absurd ((distLe_iff _ _ _).mp hd) (by decide!)
  intro h
  exact absurd (key 1 h) (by decide)

/-- C3: whatever the points, the tree and the tolerance, every cluster the
clustering operation emits has its size in `[minSize, maxSize]`; the emitted
clusters are clusters of `euclideanCluster`, in their order, and one whose size
is outside the bounds is not emitted.  The operation returns whenever the
points and the tree are well formed. -/
theorem emitted_clusters_within_bounds (points : List Point) (tree : KdTree) (tol : ℚ)
    (minSize maxSize : Int) :
    (∀ out, CustomClustering points tree tol minSize maxSize = some out →
      (∀ c ∈ out, minSize ≤ (c.length : Int) ∧ (c.length : Int) ≤ maxSize) ∧
      ∃ cs, euclideanCluster points tree tol = some cs ∧ out.Sublist cs ∧
        ∀ c ∈ cs, (c ∈ out ↔ minSize ≤ (c.length : Int) ∧ (c.length : Int) ≤ maxSize)) ∧
    ((∀ p ∈ points, 3 ≤ p.length) →
      (∀ q ∈ tree.root.pairs, 3 ≤ q.1.length ∧ 0 ≤ q.2 ∧ q.2 < points.length) →
      (CustomClustering points tree tol minSize maxSize).isSome) := by
  constructor
  · intro out hout
    unfold CustomClustering at hout
    cases hcs : euclideanCluster points tree tol with
    | none => simp [hcs] at hout
    | some cs =>
      simp only [hcs, Option.map_some', Option.some.injEq] at hout
      subst hout
      refine ⟨?_, cs, rfl, List.filter_sublist _, ?_⟩
      · intro c hc
        simpa using (List.mem_filter.mp hc).2
      · intro c hc
        simp [List.mem_filter, hc]
  · intro hpts htree
    obtain ⟨out, Pf, e, -⟩ := euclideanCluster_spec (Ctx.of_hyps hpts htree) tol
    simp [CustomClustering, e]

/-- C3 at scenario A with bounds `[2, 10]`: only the cluster of three is emitted. -/
theorem emitted_clusters_within_bounds_witness :
    CustomClustering pointsA treeA (3 / 2) 2 10 = some [[0, 1, 2]] ∧
    (∀ c ∈ [[(0 : Int), 1, 2]], (2 : Int) ≤ (c.length : Int) ∧ (c.length : Int) ≤ 10) :=
  ⟨by decide!,
    ((emitted_clusters_within_bounds pointsA treeA (3 / 2) 2 10).1 [[0, 1, 2]]
      (by decide!)).1⟩

/-- C4: the empty tree satisfies the k-d ordering invariant; inserting a
3-coordinate point into a tree (of points with three coordinates) that
satisfies the invariant succeeds and gives a tree that satisfies it; hence
every tree built from the empty tree by inserts satisfies it. -/
theorem insert_preserves_inv :
    KdTree.empty.Inv ∧
    (∀ (tree : KdTree) (point : Point) (id : Int), tree.root.WF → tree.Inv →
      point.length = 3 → ∃ tree', tree.insert point id = some tree' ∧ tree'.Inv) ∧
    (∀ ops : List (Point × Int), (∀ q ∈ ops, q.1.length = 3) →
      ∃ tree, insertAll KdTree.empty ops = some tree ∧ tree.Inv) := by
  refine ⟨trivial, ?_, ?_⟩
  · intro tree point id hwf hinv hpt
    obtain ⟨n', e, -⟩ := insertHelper_spec tree.root 0 point id hwf hpt.ge
    refine ⟨⟨n'⟩, by simp [KdTree.insert, e], ?_⟩
    exact insertHelper_inv tree.root 0 point id hwf hpt.ge hinv n' e
  · intro ops hops
    obtain ⟨tree, e, -, -, hinv⟩ :=
      insertAll_spec ops KdTree.empty empty_WF (fun q hq => (hops q hq).ge)
    exact ⟨tree, e, hinv trivial⟩

/-- C4 at scenario A: inserting `(1/2, 3, 2)` into the tree of scenario A. -/
theorem insert_preserves_inv_witness :
    ∃ tree', treeA.insert [1 / 2, 3, 2] 7 = some tree' ∧ tree'.Inv :=
  insert_preserves_inv.2.1 treeA [1 / 2, 3, 2] 7 (by decide) (by decide!) (by decide)

/-- C5: inserting a 3-coordinate point into a tree (of points with three
coordinates) succeeds; every position other than one keeps what it held, that
one position held no node and now holds a childless node with the new pair;
the stored pairs are the old ones and the new one, and there is one node more.
On the empty tree the result is a single root with the new pair. -/
theorem insert_adds_one_leaf (tree : KdTree) (point : Point) (id : Int)
    (htree : tree.root.WF) (hpt : point.length = 3) :
    ∃ tree', tree.insert point id = some tree' ∧
      (∃ pos, tree.root.label pos = none ∧ tree'.root.label pos = some (point, id) ∧
        tree'.root.label (pos ++ [Side.left]) = none ∧
        tree'.root.label (pos ++ [Side.right]) = none ∧
        ∀ path, path ≠ pos → tree'.root.label path = tree.root.label path) ∧
      (tree'.root.pairs : Multiset (Point × Int)) = (point, id) ::ₘ ↑tree.root.pairs ∧
      tree'.root.size = tree.root.size + 1 ∧
      KdTree.empty.insert point id = some ⟨Node.mk point id Node.null Node.null⟩ := by
  obtain ⟨n', e, -, hperm, hsize⟩ := insertHelper_spec tree.root 0 point id htree hpt.ge
  refine ⟨⟨n'⟩, by simp [KdTree.insert, e], ?_, ?_, hsize, rfl⟩
  · exact insertHelper_label tree.root 0 point id htree hpt.ge n' e
  · exact (Multiset.coe_eq_coe.mpr hperm).trans (Multiset.cons_coe _ _).symm

/-- C5 at scenario A: the pair `((0,0,0), 0)` is inserted a second time. -/
theorem insert_adds_one_leaf_witness :
    ∃ tree', treeA.insert [0, 0, 0] 0 = some tree' ∧
      (∃ pos, treeA.root.label pos = none ∧ tree'.root.label pos = some ([0, 0, 0], 0) ∧
        tree'.root.label (pos ++ [Side.left]) = none ∧
        tree'.root.label (pos ++ [Side.right]) = none ∧
        ∀ path, path ≠ pos → tree'.root.label path = treeA.root.label path) ∧
      (tree'.root.pairs : Multiset (Point × Int)) = ([0, 0, 0], 0) ::ₘ ↑treeA.root.pairs ∧
      tree'.root.size = treeA.root.size + 1 ∧
      KdTree.empty.insert [0, 0, 0] 0 = some ⟨Node.mk [0, 0, 0] 0 Node.null Node.null⟩ :=
  insert_adds_one_leaf treeA [0, 0, 0] 0 (by decide) (by decide)

/-- C6: the search on the empty tree returns the empty list for every target
and tolerance, and `euclideanCluster` on the empty point list returns no
cluster for every tree and tolerance. -/
theorem empty_input_empty_output (target : Point) (tol : ℚ) (tree : KdTree) :
    KdTree.empty.search target tol = some [] ∧ euclideanCluster [] tree tol = some [] :=
  ⟨rfl, rfl⟩

/-- C7: for a 3-coordinate point `p` and any tolerance, zero and negative
included, with the tree obtained from the empty tree by `insert(p, 0)`,
`euclideanCluster([p], tree, tolerance)` returns exactly the one cluster `[0]`. -/
theorem single_point_one_cluster (p : Point) (tol : ℚ) (hp : p.length = 3) :
    ∃ tree, KdTree.empty.insert p 0 = some tree ∧
      euclideanCluster [p] tree tol = some [[0]] := by
  refine ⟨⟨Node.mk p 0 Node.null Node.null⟩, rfl, ?_⟩
  have hwf : (Node.mk p 0 Node.null Node.null).WF := by
    intro q hq
    simp only [Node.pairs, List.append_nil, List.mem_singleton] at hq
    subst hq; exact hp.ge
  have hs := searchHelper_scan p hp.ge tol (Node.mk p 0 Node.null Node.null) hwf 0
    (by simp [Node.Inv, Node.pairs]) []
  have hsearch : KdTree.search ⟨Node.mk p 0 Node.null Node.null⟩ p tol =
      some (if near p tol (p, 0) then [0] else []) := by
    rw [scan_mk] at hs
    simpa [KdTree.search, scan, Node.pairs] using hs
  have hset : setAt [false] (0 : Int) true = some [true] := rfl
  have hget : getAt [p] (0 : Int) = some p := rfl
  have hvisit : ∀ fuel, visit fuel [p] ⟨Node.mk p 0 Node.null Node.null⟩ tol 0
      ([0], [true]) = some ([0], [true]) := fun _ => rfl
  have hhelp : clusterHelper 1 0 [p] [] [false] ⟨Node.mk p 0 Node.null Node.null⟩ tol =
      some ([0], [true]) := by
    rw [clusterHelper_succ, hset, Option.some_bind, hget, Option.some_bind, hsearch,
      Option.some_bind]
    split_ifs
    · simp [forNearest, hvisit]
    · simp [forNearest]
  simp [euclideanCluster, clusterLoop, hhelp]

/-- C7 at the point `(2,2,2)` with tolerance `-1`. -/
theorem single_point_one_cluster_witness :
    ∃ tree, KdTree.empty.insert [2, 2, 2] 0 = some tree ∧
      euclideanCluster [[2, 2, 2]] tree (-1) = some [[0]] :=
  single_point_one_cluster [2, 2, 2] (-1) (by decide)

/-- C8: when every point of `points` and every point stored in the tree has at
least three coordinates and every id stored in the tree indexes `points`, no
index access of `insert`, `search`, `clusterHelper` (called with an index into
`points` and one flag per point) or `euclideanCluster` fails: each returns a
result. -/
theorem no_index_failure (points : List Point) (tree : KdTree)
    (hpts : ∀ p ∈ points, 3 ≤ p.length)
    (htree : ∀ q ∈ tree.root.pairs, 3 ≤ q.1.length ∧ 0 ≤ q.2 ∧ q.2 < points.length) :
    (∀ (point : Point) (id : Int), 3 ≤ point.length → (tree.insert point id).isSome) ∧
    (∀ (target : Point) (tol : ℚ), 3 ≤ target.length → (tree.search target tol).isSome) ∧
    (∀ (fuel : Nat) (indice : Int) (cluster : List Int) (processed : List Bool) (tol : ℚ),
      points.length < fuel → 0 ≤ indice → indice < points.length →
      processed.length = points.length →
      (clusterHelper fuel indice points cluster processed tree tol).isSome) ∧
    (∀ tol : ℚ, (euclideanCluster points tree tol).isSome) := by
  have hctx : Ctx points tree := Ctx.of_hyps hpts htree
  refine ⟨?_, ?_, ?_, ?_⟩
  · intro point id hpt
    obtain ⟨n', e, -⟩ := insertHelper_spec tree.root 0 point id hctx.tree_wf hpt
    simp [KdTree.insert, e]
  · intro target tol ht
    obtain ⟨nearest, e, -⟩ := search_total hctx ht tol
    simp [e]
  · intro fuel indice cluster processed tol hfuel h0 h1 hlen
    obtain ⟨P1, hset⟩ := setAt_isSome true h0 (hlen ▸ h1)
    have hc : P1.count false ≤ P1.length := List.count_le_length _ _
    rw [setAt_length hset, hlen] at hc
    obtain ⟨new, st, e, -⟩ := clusterHelper_spec hctx tol fuel indice cluster processed P1
      hlen hset (by omega)
    simp [e]
  · intro tol
    obtain ⟨out, Pf, e, -⟩ := euclideanCluster_spec hctx tol
    simp [e]

/-- C8 at scenario A. -/
theorem no_index_failure_witness :
    (∀ (point : Point) (id : Int), 3 ≤ point.length → (treeA.insert point id).isSome) ∧
    (∀ (target : Point) (tol : ℚ), 3 ≤ target.length → (treeA.search target tol).isSome) ∧
    (∀ (fuel : Nat) (indice : Int) (cluster : List Int) (processed : List Bool) (tol : ℚ),
      pointsA.length < fuel → 0 ≤ indice → indice < pointsA.length →
      processed.length = pointsA.length →
      (clusterHelper fuel indice pointsA cluster processed treeA tol).isSome) ∧
    (∀ tol : ℚ, (euclideanCluster pointsA treeA tol).isSome) :=
  no_index_failure pointsA treeA (by decide) (by decide)

/-- C10: when every id stored in the tree indexes `points` (and all points have
their three coordinates), `euclideanCluster` returns clusters each of which
starts with its smallest id, and these first ids increase strictly along the
output. -/
theorem clusters_in_ascending_seed_order (points : List Point) (tree : KdTree) (tol : ℚ)
    (hpts : ∀ p ∈ points, 3 ≤ p.length)
    (htree : ∀ q ∈ tree.root.pairs, 3 ≤ q.1.length ∧ 0 ≤ q.2 ∧ q.2 < points.length) :
    ∃ cs, euclideanCluster points tree tol = some cs ∧
      (∀ c ∈ cs, ∃ s rest, c = s :: rest ∧ ∀ x ∈ rest, s < x) ∧
      cs.Pairwise (fun c c' => ∃ s s', c.head? = some s ∧ c'.head? = some s' ∧ s < s') := by
  obtain ⟨cs, Pf, e, hinv⟩ := euclideanCluster_spec (Ctx.of_hyps hpts htree) tol
  refine ⟨cs, e, ?_, hinv.heads⟩
  intro c hc
  obtain ⟨s, rest, hcs, -, -, -, hmin, -⟩ := hinv.shape c hc
  exact ⟨s, rest, hcs, hmin⟩

/-- C10 at scenario A with tolerance `3/2`. -/
theorem clusters_in_ascending_seed_order_witness :
    ∃ cs, euclideanCluster pointsA treeA (3 / 2) = some cs ∧
      (∀ c ∈ cs, ∃ s rest, c = s :: rest ∧ ∀ x ∈ rest, s < x) ∧
      cs.Pairwise (fun c c' => ∃ s s', c.head? = some s ∧ c'.head? = some s' ∧ s < s') :=
  clusters_in_ascending_seed_order pointsA treeA (3 / 2) (by decide) (by decide)

end cluster

namespace ProcessPointClouds

/-! ## The claim on the plane segmentation -/

/-- Three points on one line, the third at parameter `t` from the first along
the edge to the second, give a normal of magnitude zero; so do three points
two of which are equal. -/
theorem degenerate_of_collinear (p0 p1 p2 : PointXYZ) (t : ℚ)
    (hx : p2.x - p0.x = t * (p1.x - p0.x)) (hy : p2.y - p0.y = t * (p1.y - p0.y))
    (hz : p2.z - p0.z = t * (p1.z - p0.z)) :
    (planeThrough p0 p1 p2).degenerate = true := by
  simp only [PlaneModel.degenerate, planeThrough, decide_eq_true_eq, hx, hy, hz]
  ring

theorem bestPlane_all_degenerate (cloud : List PointXYZ) (distanceTol : ℚ)
    (samples : List (Fin cloud.length × Fin cloud.length × Fin cloud.length))
    (hdeg : ∀ s ∈ samples,
      (planeThrough (cloud.get s.1) (cloud.get s.2.1) (cloud.get s.2.2)).degenerate = true)
    (best : Option (PlaneModel × Nat)) :
    bestPlane cloud distanceTol samples best = best := by
  induction samples with
  | nil => rfl
  | cons s rest ih =>
    have hs := hdeg s (List.mem_cons_self _ _)
    simp only [bestPlane, hs, if_true]
    exact ih (fun t ht => hdeg t (List.mem_cons_of_mem _ ht))

/-- C9: for every cloud, every number of iterations and every distance
tolerance, when the triple sampled in each iteration is degenerate (the normal
has magnitude zero), the plane segmentation returns an empty inlier cloud and
the original cloud as outlier cloud. -/
theorem ransac_all_degenerate (cloud : List PointXYZ)
    (samples : List (Fin cloud.length × Fin cloud.length × Fin cloud.length))
    (distanceTol : ℚ)
    (hdeg : ∀ s ∈ samples,
      (planeThrough (cloud.get s.1) (cloud.get s.2.1) (cloud.get s.2.2)).degenerate = true) :
    RansacPlane cloud samples distanceTol = ([], cloud) := by
  simp only [RansacPlane, bestPlane_all_degenerate cloud distanceTol samples hdeg none]

/-- C9 at four points on a line, sampled twice, with tolerance `1/100`. -/
theorem ransac_all_degenerate_witness :
    RansacPlane cloudLine samplesLine (1 / 100) = ([], cloudLine) :=
  ransac_all_degenerate cloudLine samplesLine (1 / 100) (by decide!)

end ProcessPointClouds

namespace cluster

/-! ## The search as a descent -/

theorem forNearest_mono
    {body body' : Int → List Int × List Bool → Option (List Int × List Bool)}
    (h : ∀ id st r, body id st = some r → body' id st = some r) (nearest : List Int)
    (st r : List Int × List Bool) (e : forNearest body nearest st = some r) :
    forNearest body' nearest st = some r := by
  induction nearest generalizing st with
  | nil => exact e
  | cons id rest ih =>
    simp only [forNearest] at e ⊢
    obtain ⟨st1, e1, e2⟩ := Option.bind_eq_some.mp e
    rw [h id st st1 e1, Option.some_bind]
    exact ih st1 e2

/-- A call that returns within nesting depth `f` returns the same within any
larger depth. -/
theorem clusterHelper_mono (points : List Point) (tree : KdTree) (tol : ℚ) (f : Nat) :
    ∀ (f' : Nat) (indice : Int) (cluster : List Int) (P : List Bool)
      (st : List Int × List Bool), f ≤ f' →
      clusterHelper f indice points cluster P tree tol = some st →
      clusterHelper f' indice points cluster P tree tol = some st := by
  induction f with
  | zero => intro f' indice cluster P st _ e; simp [clusterHelper] at e
  | succ f ih =>
    intro f' indice cluster P st hle e
    obtain ⟨g, rfl⟩ : ∃ g, f' = g + 1 := ⟨f' - 1, by omega⟩
    rw [clusterHelper_succ] at e ⊢
    obtain ⟨P1, hset, e⟩ := Option.bind_eq_some.mp e
    obtain ⟨pt, hpt, e⟩ := Option.bind_eq_some.mp e
    obtain ⟨nearest, hs, e⟩ := Option.bind_eq_some.mp e
    simp only [hset, hpt, hs, Option.some_bind]
    refine forNearest_mono ?_ nearest _ st e
    intro id s r hv
    unfold visit at hv ⊢
    obtain ⟨b, hb, hv⟩ := Option.bind_eq_some.mp hv
    rw [hb, Option.some_bind]
    cases b with
    | true => simpa using hv
    | false =>
      simp only [Bool.not_false, if_true] at hv ⊢
      exact ih g id s.1 s.2 r (by omega) hv

theorem visit_mono (points : List Point) (tree : KdTree) (tol : ℚ) {f f' : Nat}
    (hle : f ≤ f') (id : Int) (s r : List Int × List Bool)
    (hv : visit f points tree tol id s = some r) : visit f' points tree tol id s = some r := by
  unfold visit at hv ⊢
  obtain ⟨b, hb, hv⟩ := Option.bind_eq_some.mp hv
  rw [hb, Option.some_bind]
  cases b with
  | true => simpa using hv
  | false =>
    simp only [Bool.not_false, if_true] at hv ⊢
    exact clusterHelper_mono points tree tol f f' id s.1 s.2 r hle hv

/-- A call that returns does so within a nesting depth equal to the number of
ids it appends to the cluster. -/
theorem clusterHelper_depth (points : List Point) (tree : KdTree) (tol : ℚ) (f : Nat) :
    ∀ (indice : Int) (cluster : List Int) (P : List Bool) (st : List Int × List Bool),
      clusterHelper f indice points cluster P tree tol = some st →
      ∃ new, st.1 = cluster ++ indice :: new ∧
        clusterHelper (new.length + 1) indice points cluster P tree tol = some st := by
  induction f with
  | zero => intro indice cluster P st e; simp [clusterHelper] at e
  | succ f ih =>
    intro indice cluster P st e
    rw [clusterHelper_succ] at e
    obtain ⟨P1, hset, e⟩ := Option.bind_eq_some.mp e
    obtain ⟨pt, hpt, e⟩ := Option.bind_eq_some.mp e
    obtain ⟨nearest, hs, e⟩ := Option.bind_eq_some.mp e
    have hloop : ∀ (l : List Int) (s r : List Int × List Bool),
        forNearest (visit f points tree tol) l s = some r →
        ∃ new, r.1 = s.1 ++ new ∧
          forNearest (visit new.length points tree tol) l s = some r := by
      intro l
      induction l with
      | nil =>
        intro s r hr
        simp only [forNearest, Option.some.injEq] at hr
        subst hr
        exact ⟨[], by simp, rfl⟩
      | cons id rest ihl =>
        intro s r hr
        simp only [forNearest] at hr
        obtain ⟨s1, hv, hr⟩ := Option.bind_eq_some.mp hr
        obtain ⟨new2, hnew2, hr2⟩ := ihl s1 r hr
        have hv' := hv
        unfold visit at hv'
        obtain ⟨b, hb, hv'⟩ := Option.bind_eq_some.mp hv'
        cases b with
        | true =>
          simp only [Bool.not_true, Bool.false_eq_true, if_false, Option.some.injEq] at hv'
          subst hv'
          refine ⟨new2, hnew2, ?_⟩
          have hvis : visit new2.length points tree tol id s = some s := by
            unfold visit
            simp [hb]
          simp only [forNearest, hvis, Option.some_bind]
          exact hr2
        | false =>
          simp only [Bool.not_false, if_true] at hv'
          obtain ⟨new1, hnew1, hc1⟩ := ih id s.1 s.2 s1 hv'
          refine ⟨(id :: new1) ++ new2, by rw [hnew2, hnew1, List.append_assoc], ?_⟩
          have hlen : ((id :: new1) ++ new2).length = new1.length + 1 + new2.length := by
            simp only [List.cons_append, List.length_cons, List.length_append]
            omega
          have hvis : visit ((id :: new1) ++ new2).length points tree tol id s = some s1 := by
            unfold visit
            simp only [hb, Option.some_bind, Bool.not_false, if_true]
            exact clusterHelper_mono points tree tol _ _ id s.1 s.2 s1 (by omega) hc1
          simp only [forNearest, hvis, Option.some_bind]
          exact forNearest_mono (fun j t u => visit_mono points tree tol (by omega) j t u)
            rest s1 r hr2
    obtain ⟨new, hnew, hrun⟩ := hloop nearest (cluster ++ [indice], P1) st e
    refine ⟨new, by rw [hnew]; simp, ?_⟩
    rw [clusterHelper_succ]
    simp only [hset, hpt, hs, Option.some_bind]
    exact hrun

/-! ## The claims on termination, the cube test, the partition and the scan -/

/-- C11: when every id stored in the tree indexes `points` (and all points have
their three coordinates), `euclideanCluster` returns; and every call of
`clusterHelper` on an unprocessed id returns, marks that id, enters only ids
that were unprocessed, leaves as many fewer ids unprocessed as it appends to
the cluster, and needs no deeper nesting of calls than the number of ids it
appends, which is the size of the cluster when the call starts one. -/
theorem cluster_expansion_terminates (points : List Point) (tree : KdTree) (tol : ℚ)
    (hpts : ∀ p ∈ points, 3 ≤ p.length)
    (htree : ∀ q ∈ tree.root.pairs, 3 ≤ q.1.length ∧ 0 ≤ q.2 ∧ q.2 < points.length) :
    (∃ cs, euclideanCluster points tree tol = some cs) ∧
    ∀ (indice : Int) (cluster : List Int) (processed : List Bool),
      processed.length = points.length → getAt processed indice = some false →
      ∃ new st, st.1 = cluster ++ indice :: new ∧
        getAt st.2 indice = some true ∧
        (∀ x ∈ new, getAt processed x = some false) ∧
        st.2.count false + (new.length + 1) = processed.count false ∧
        ∀ fuel, new.length + 1 ≤ fuel →
          clusterHelper fuel indice points cluster processed tree tol = some st := by
  have hctx : Ctx points tree := Ctx.of_hyps hpts htree
  constructor
  · obtain ⟨cs, -, e, -⟩ := euclideanCluster_spec hctx tol
    exact ⟨cs, e⟩
  · intro indice cluster P hlen hfalse
    obtain ⟨h0, h1⟩ := getAt_range hfalse
    obtain ⟨P1, hset⟩ := setAt_isSome true h0 h1
    have hc1 := count_false_setAt hset
    rw [if_pos hfalse] at hc1
    have hc2 : P.count false ≤ points.length := hlen ▸ List.count_le_length _ _
    obtain ⟨new, st, e, post⟩ := clusterHelper_spec hctx tol points.length indice cluster
      P P1 hlen hset (by omega)
    have hext : Extends cluster P (indice :: new) st := Extends.mark hset hfalse post.ext
    obtain ⟨new', hnew', hrun⟩ := clusterHelper_depth points tree tol points.length indice
      cluster P st e
    have hsame : new' = new := by
      have := hext.cluster_eq
      rw [hnew'] at this
      exact List.tail_eq_of_cons_eq (List.append_cancel_left this)
    subst hsame
    refine ⟨new', st, hnew', ?_, ?_, ?_, ?_⟩
    · exact (hext.marked indice).mpr (Or.inr (List.mem_cons_self _ _))
    · exact fun x hx => hext.fresh x (List.mem_cons_of_mem _ hx)
    · simpa using hext.count
    · intro fuel hfuel
      exact clusterHelper_mono points tree tol _ fuel indice cluster P st hfuel hrun

/-- C11 at three points in a row with tolerance 1: the general statement, and
the one cluster of size three, which nesting depth 3 reaches and 2 does not. -/
theorem cluster_expansion_terminates_witness :
    ((∃ cs, euclideanCluster pointsRow treeRow 1 = some cs) ∧
      ∀ (indice : Int) (cluster : List Int) (processed : List Bool),
        processed.length = pointsRow.length → getAt processed indice = some false →
        ∃ new st, st.1 = cluster ++ indice :: new ∧
          getAt st.2 indice = some true ∧
          (∀ x ∈ new, getAt processed x = some false) ∧
          st.2.count false + (new.length + 1) = processed.count false ∧
          ∀ fuel, new.length + 1 ≤ fuel →
            clusterHelper fuel indice pointsRow cluster processed treeRow 1 = some st) ∧
    euclideanCluster pointsRow treeRow 1 = some [[0, 1, 2]] ∧
    clusterHelper 3 0 pointsRow [] [false, false, false] treeRow 1 =
      some ([0, 1, 2], [true, true, true]) ∧
    clusterHelper 2 0 pointsRow [] [false, false, false] treeRow 1 = none :=
  ⟨cluster_expansion_terminates pointsRow treeRow 1 (by decide) (by decide),
    by decide!, by decide!, by decide!⟩

/-- C13: when every id stored in the tree indexes `points` (the tree need not
correspond to `points`; all points have their three coordinates), the output
of `euclideanCluster` is a partition of the ids `0..n-1`: every cluster is
non-empty and free of duplicates, no id is in two clusters, the ids in the
clusters are exactly `0..n-1`, each in exactly one cluster, and the cluster
sizes sum to `n`. -/
theorem clusters_partition_ids (points : List Point) (tree : KdTree) (tol : ℚ)
    (hpts : ∀ p ∈ points, 3 ≤ p.length)
    (htree : ∀ q ∈ tree.root.pairs, 3 ≤ q.1.length ∧ 0 ≤ q.2 ∧ q.2 < points.length) :
    ∃ cs, euclideanCluster points tree tol = some cs ∧
      (∀ c ∈ cs, c ≠ []) ∧ (∀ c ∈ cs, c.Nodup) ∧ cs.Pairwise List.Disjoint ∧
      (∀ k : Int, (∃ c ∈ cs, k ∈ c) ↔ 0 ≤ k ∧ k < points.length) ∧
      (∀ k : Int, 0 ≤ k → k < points.length → ∃! c, c ∈ cs ∧ k ∈ c) ∧
      (cs.map List.length).sum = points.length := by
  obtain ⟨cs, Pf, e, inv⟩ := euclideanCluster_spec (Ctx.of_hyps hpts htree) tol
  have hne : ∀ c ∈ cs, c ≠ [] := by
    intro c hc
    obtain ⟨s, rest, hcs, -⟩ := inv.shape c hc
    rw [hcs]; exact List.cons_ne_nil _ _
  have hnd : ∀ c ∈ cs, c.Nodup := by
    intro c hc
    obtain ⟨s, rest, -, -, -, h, -⟩ := inv.shape c hc
    exact h
  have hdis : cs.Pairwise List.Disjoint :=
    inv.disjoint.imp (fun h x hx hx' => h x hx hx')
  have hcov : ∀ k : Int, (∃ c ∈ cs, k ∈ c) ↔ 0 ≤ k ∧ k < points.length := by
    intro k
    rw [← inv.covered]
    constructor
    · intro h
      have := getAt_range h
      rwa [inv.len] at this
    · rintro ⟨h0, h1⟩
      have := inv.done k.toNat ((Int.toNat_lt h0).mpr h1)
      rwa [Int.toNat_of_nonneg h0] at this
  refine ⟨cs, e, hne, hnd, hdis, hcov, ?_, ?_⟩
  · intro k h0 h1
    obtain ⟨c, hc, hk⟩ := (hcov k).mpr ⟨h0, h1⟩
    refine ⟨c, ⟨hc, hk⟩, ?_⟩
    rintro c' ⟨hc', hk'⟩
    by_contra hcc
    have hsym : Symmetric (List.Disjoint : List Int → List Int → Prop) :=
      fun _ _ h => h.symm
    exact hdis.forall hsym hc' hc hcc hk' hk
  · rw [← List.length_flatten]
    have hnodup : cs.flatten.Nodup := List.nodup_flatten.mpr ⟨hnd, hdis⟩
    have hrange : ((List.range points.length).map (fun j : Nat => (j : Int))).Nodup :=
      (List.nodup_range _).map (fun a b h => by simpa using h)
    have hperm : cs.flatten.Perm ((List.range points.length).map (fun j : Nat => (j : Int))) := by
      refine (List.perm_ext_iff_of_nodup hnodup hrange).mpr ?_
      intro k
      rw [List.mem_flatten, hcov, List.mem_map]
      constructor
      · rintro ⟨h0, h1⟩
        exact ⟨k.toNat, List.mem_range.mpr ((Int.toNat_lt h0).mpr h1), Int.toNat_of_nonneg h0⟩
      · rintro ⟨j, hj, rfl⟩
        exact ⟨Int.natCast_nonneg j, by exact_mod_cast List.mem_range.mp hj⟩
    simpa using hperm.length_eq

/-- C13 at scenario A with tolerance `3/2`. -/
theorem clusters_partition_ids_witness :
    ∃ cs, euclideanCluster pointsA treeA (3 / 2) = some cs ∧
      (∀ c ∈ cs, c ≠ []) ∧ (∀ c ∈ cs, c.Nodup) ∧ cs.Pairwise List.Disjoint ∧
      (∀ k : Int, (∃ c ∈ cs, k ∈ c) ↔ 0 ≤ k ∧ k < pointsA.length) ∧
      (∀ k : Int, 0 ≤ k → k < pointsA.length → ∃! c, c ∈ cs ∧ k ∈ c) ∧
      (cs.map List.length).sum = pointsA.length :=
  clusters_partition_ids pointsA treeA (3 / 2) (by decide) (by decide)

/-- C14 (amended): for a 3-coordinate target and any tolerance, on every tree
(of points with three coordinates) that satisfies the k-d ordering invariant
the search returns exactly the ids of the pre-order list of the stored pairs
that pass the tests of lines 129 and 135 as the program computes them in
`float` (`near`).  So the result is a sublist of the stored ids in pre-order
(a node contributes at most once), it has no duplicates when the stored ids
are distinct, and it holds an id as many times as the id is stored at a point
that passes the tests; on a tree built by inserts, as many times as it was
inserted at such a point. -/
theorem search_eq_preorder_scan_of_tests (target : Point) (tol : ℚ)
    (ht : target.length = 3) :
    (∀ q : Point × Int, 3 ≤ q.1.length →
      (near target tol q = true ↔ Reported q.1 target tol)) ∧
    (∀ tree : KdTree, tree.root.WF → tree.Inv →
      tree.search target tol =
        some ((tree.root.pairs.filter (near target tol)).map Prod.snd) ∧
      ((tree.root.pairs.filter (near target tol)).map Prod.snd).Sublist
        (tree.root.pairs.map Prod.snd) ∧
      ((tree.root.pairs.map Prod.snd).Nodup →
        ((tree.root.pairs.filter (near target tol)).map Prod.snd).Nodup) ∧
      ∀ id : Int, ((tree.root.pairs.filter (near target tol)).map Prod.snd).count id =
        tree.root.pairs.countP (fun q => decide (q.2 = id) && near target tol q)) ∧
    (∀ ops : List (Point × Int), (∀ q ∈ ops, q.1.length = 3) →
      ∃ tree ids, insertAll KdTree.empty ops = some tree ∧
        tree.search target tol = some ids ∧
        ∀ id : Int, ids.count id =
          ops.countP (fun q => decide (q.2 = id) && near target tol q)) := by
  have hcount : ∀ (l : List (Point × Int)) (id : Int),
      ((l.filter (near target tol)).map Prod.snd).count id =
        l.countP (fun q => decide (q.2 = id) && near target tol q) := by
    intro l id
    rw [List.count_eq_countP, List.countP_map, List.countP_filter]
    rfl
  refine ⟨fun q hq => (reported_iff_near hq ht.ge tol q.2).symm, ?_, ?_⟩
  · intro tree hwf hinv
    have hs := searchHelper_scan target ht.ge tol tree.root hwf 0 hinv []
    have hsub : ((tree.root.pairs.filter (near target tol)).map Prod.snd).Sublist
        (tree.root.pairs.map Prod.snd) := (List.filter_sublist _).map _
    refine ⟨by simpa [KdTree.search, scan] using hs, hsub, fun h => hsub.nodup h,
      hcount _⟩
  · intro ops hops
    obtain ⟨tree, e, hwf, hperm, hinv⟩ :=
      insertAll_spec ops KdTree.empty empty_WF (fun q hq => (hops q hq).ge)
    have hs := searchHelper_scan target ht.ge tol tree.root hwf 0 (hinv trivial) []
    refine ⟨tree, _, e, by simpa [KdTree.search, scan] using hs, ?_⟩
    intro id
    rw [hcount]
    have hp : tree.root.pairs.Perm ops := by
      simpa [KdTree.empty, Node.pairs] using hperm
    exact hp.countP_eq _

/-- C14 (amended) at three inserts under the id 7, target `(0,0,0)` and
tolerance `3/2`: the id is returned twice. -/
theorem search_eq_preorder_scan_of_tests_witness :
    (∃ tree ids, insertAll KdTree.empty opsSeven = some tree ∧
      tree.search [0, 0, 0] (3 / 2) = some ids ∧
      ∀ id : Int, ids.count id =
        opsSeven.countP (fun q => decide (q.2 = id) && near [0, 0, 0] (3 / 2) q)) ∧
    (insertAll KdTree.empty opsSeven).bind (fun t => t.search [0, 0, 0] (3 / 2)) =
      some [7, 7] :=
  ⟨(search_eq_preorder_scan_of_tests [0, 0, 0] (3 / 2) (by decide)).2.2 opsSeven (by decide),
    by decide!⟩

/-- C14, counterexample: the claim filters by the exact Euclidean distance.
The tree that holds `(0.3f, 0.4f, 0)` under id 0 satisfies the invariant and
no stored point is within exact distance `0.5` of the origin, so the exact
scan is empty; the search around the origin with tolerance `0.5` returns
`[0]`. -/
theorem search_eq_preorder_scan_counterexample :
    treeF.root.WF ∧ treeF.Inv ∧
    (∀ q ∈ treeF.root.pairs, ∀ x ∈ q.1, F32.round x = F32.fin x) ∧
    treeF.search [0, 0, 0] (1 / 2) = some [0] ∧
    ∀ q ∈ treeF.root.pairs, ¬ DistLe q.1 [0, 0, 0] (1 / 2) := by
  refine ⟨by decide, by decide!, by decide!, by decide!, ?_⟩
  intro q hq hd
  have hq' : q = (pointF, 0) := by simpa [treeF, Node.pairs] using hq
  subst hq'
  exact absurd ((distLe_iff _ _ _).mp hd) (by decide!)

end cluster
